import Mathlib

set_option maxRecDepth 8000

/-
Verification of the js-dast collection library against its specification.

The development shallowly embeds the JavaScript sources:
  * `src/common/utils.js`            → `getType`, `getArrayType`, value tags
  * `src/array/TypeSafeReadonlyArray.js`
                                     → `TypeSafeSortedArray` record, `readonlySplice`
  * `src/array/TypeSafeSortedArray.js`
                                     → `findInsertionIndex`, `add`, `binarySearch`,
                                       `includes`, `indexOf`, `lastIndexOf`,
                                       `slice`, `filter`, `sortedArrayNew`
  * `src/linked-list/LinkedList.js`, `src/linked-list/TypeSafeLinkedList.js`
                                     → list contents of a `LinkedList` as a `List`,
                                       `typeSafeLinkedListNew`, `typeSafeLinkedListPush`
  * `src/queue/Queue.js`, `src/stack/Stack.js`
                                     → `Queue`, `Stack` records and their operations

JavaScript machine numbers appearing in the claims are integers, so indices and
comparator results are modelled as `Int`; `Math.floor((l + r) / 2)` on integer
operands is integer floor division, which is `Int` division `/` in Lean
(Euclidean division agrees with floor division for the positive divisor 2).
Native `===` equality on the element type is modelled by `DecidableEq`.
-/

namespace JsDast

/-- JavaScript values, restricted to the primitive kinds the claims exercise.
`undefined` is representable only as the absence of a value (`Option`). -/
inductive JSVal where
  | num : Int → JSVal
  | str : String → JSVal
  | bool : Bool → JSVal
deriving DecidableEq, Repr

/-- Model of `getType` from `src/common/utils.js`: the runtime type tag of a value
(`Object.prototype.toString.call(subject).slice(8, -1)`). -/
def getType : JSVal → String
  | .num _ => "Number"
  | .str _ => "String"
  | .bool _ => "Boolean"

/-- Model of `COMPARE.NUMBER` from `src/common/utils.js`: `(a, b) => a - b`.
On non-number operands JavaScript subtraction yields `NaN`; every use of a
comparator result in the library is a test `r > 0`, and `NaN > 0` is false,
so returning `0` for non-number operands induces exactly the same control
flow as `NaN` does. -/
def compareNumber : JSVal → JSVal → Int
  | .num a, .num b => a - b
  | _, _ => 0

/-- Error kinds of `ErrorTypeSafe` (`src/error/ErrorTypeSafe.js`): the `error`
string passed to the constructor, i.e. "add", "assign" or "initialize"
(the last is named `init` here). -/
inductive ErrorTypeSafe where
  | add
  | assign
  | init
deriving DecidableEq, Repr

/-- Error kinds of `ErrorCapacity` (`src/error/ErrorCapacity.js`): only "set". -/
inductive ErrorCapacity where
  | set
deriving DecidableEq, Repr

/-- Runtime faults raised by the JavaScript engine itself rather than by the
library; dereferencing a property of `null` raises `TypeError`. -/
inductive JsRuntimeFault where
  | typeError
deriving DecidableEq, Repr

section ArrayModel

variable {α : Type} [DecidableEq α]

/-- Model of `getArrayType` from `src/common/utils.js` for a plain array:
`getType(array[0])` (which is "Undefined" for an empty array, since
`array[0]` is `undefined`), returned when every element has that tag,
`undefined` (here `none`) otherwise. The element-tag function `tagOf`
stands for `getType` at the element type. -/
def getArrayType (tagOf : α → String) : List α → Option String
  | [] => some "Undefined"
  | x :: xs => if (x :: xs).all (fun y => tagOf y == tagOf x) then some (tagOf x) else none

/-- JavaScript integer indexing `array[i]`: a value for `0 ≤ i < length`,
`undefined` (here `none`) otherwise. -/
def getI (l : List α) (i : Int) : Option α :=
  if 0 ≤ i then l[i.toNat]? else none

/-- Index resolution of `Array.prototype.slice` / `Array.prototype.splice`:
a negative index counts from the end (clamped at 0), a positive one is
clamped at the length. -/
def jsSliceIndex (len : Nat) (i : Int) : Nat :=
  if i < 0 then ((len : Int) + i).toNat else min i.toNat len

/-- Model of `Array.prototype.slice(start, end)`; `none` for an omitted end. -/
def jsSlice (l : List α) (start : Int) (stop : Option Int) : List α :=
  let s := jsSliceIndex l.length start
  let e := match stop with
    | none => l.length
    | some e => jsSliceIndex l.length e
  (l.take e).drop s

/-- Model of `Array.prototype.splice(start, deleteCount, ...items)` with an
explicitly supplied integer `deleteCount` (every call in the library passes
it positionally; an explicitly passed `undefined` coerces to 0 and is
modelled by the caller). Returns the pair (deleted elements, new array
contents). -/
def jsSplice (l : List α) (start : Int) (deleteCount : Int) (items : List α) :
    List α × List α :=
  let s := jsSliceIndex l.length start
  let dc := min (max deleteCount 0).toNat (l.length - s)
  ((l.drop s).take dc, l.take s ++ items ++ l.drop (s + dc))

/-- The state of a `TypeSafeSortedArray` (`src/array/TypeSafeSortedArray.js`):
the declared element-type tag `this.type`, the comparator `this.compare`
and the backing array `this._array` (inherited from
`TypeSafeReadonlyArray`). -/
structure TypeSafeSortedArray (α : Type) where
  type : String
  compare : α → α → Int
  _array : List α

/-- Model of `TypeSafeReadonlyArray.prototype.splice` as invoked on a sorted
array (`super.splice` in `add`): if the inserted items are non-empty and not
homogeneous of the declared type, throw `ErrorTypeSafe("add", ...)`;
otherwise delegate to the native splice. `deleteCount = none` models the
parameter default `undefined`, which the native splice (receiving it as an
explicit second argument) coerces to 0. -/
def readonlySplice (tagOf : α → String) (s : TypeSafeSortedArray α) (start : Int)
    (deleteCount : Option Int) (items : List α) :
    Except ErrorTypeSafe (TypeSafeSortedArray α × List α) :=
  if items.isEmpty || (getArrayType tagOf items == some s.type) then
    let r := jsSplice s._array start (deleteCount.getD 0) items
    .ok ({ s with _array := r.2 }, r.1)
  else
    .error .add

/-- Model of `TypeSafeSortedArray.prototype._findInsertionIndex(item, left, right)`:
binary search for the sorted insertion point, narrowing until `left >= right`,
never returning early on comparator equality. The `none` branch of the array
access is unreachable from the library call sites, which keep
`0 ≤ left < right ≤ length`. -/
def findInsertionIndex (s : TypeSafeSortedArray α) (item : α) (left right : Int) : Int :=
  if left ≥ right then
    left
  else
    let middle := (left + right) / 2
    match getI s._array middle with
    | some v =>
        if s.compare v item > 0 then findInsertionIndex s item left middle
        else findInsertionIndex s item (middle + 1) right
    | none => left
termination_by (right - left).toNat
decreasing_by
  all_goals omega

/-- Model of `TypeSafeSortedArray.prototype.add(...items)`: for each item in
argument order, compute the insertion index over the current array and
insert it there through the inherited (type-checking) splice. A thrown
`ErrorTypeSafe` propagates, leaving the elements already inserted in place;
the pair returned is the final state together with the error, if one was
thrown. (The JavaScript method returns `this.length`, which is recoverable
from the state and not modelled separately.) -/
def add (tagOf : α → String) (s : TypeSafeSortedArray α) (items : List α) :
    TypeSafeSortedArray α × Option ErrorTypeSafe :=
  match items with
  | [] => (s, none)
  | item :: rest =>
      let index := findInsertionIndex s item 0 s._array.length
      match readonlySplice tagOf s index (some 0) [item] with
      | .ok r => add tagOf r.1 rest
      | .error e => (s, some e)

/-- Model of the `TypeSafeSortedArray` constructor with an explicit comparator:
`super(type)` installs an empty backing array (the homogeneity check is
skipped for no items), then `this.add(...items)` inserts the initial items.
An error thrown by `add` aborts the `new` expression; the state component
is then the discarded partial object. -/
def sortedArrayNew (tagOf : α → String) (type : String) (compareFunc : α → α → Int)
    (items : List α) : TypeSafeSortedArray α × Option ErrorTypeSafe :=
  add tagOf ⟨type, compareFunc, []⟩ items

/-- Model of `TypeSafeSortedArray.prototype._binarySearch(item, array, left, right)`:
recursive binary search that returns the index of some occurrence found by
`===` early exit, steering by the comparator, `-1` on an empty range. The
`none` branch of the array access is unreachable from the library call
sites, which pass `left = 0`, `right = array.length - 1`. -/
def binarySearch (s : TypeSafeSortedArray α) (item : α) (array : List α)
    (left right : Int) : Int :=
  if right ≥ left then
    let middle := left + (right - left) / 2
    match getI array middle with
    | some v =>
        if v = item then middle
        else if s.compare v item > 0 then binarySearch s item array left (middle - 1)
        else binarySearch s item array (middle + 1) right
    | none => -1
  else
    -1
termination_by (right - left + 1).toNat
decreasing_by
  all_goals omega

/-- JavaScript truthiness of the optional numeric `fromIndex` argument
(`fromIndex ? ... : ...`): an omitted argument is `undefined` (falsy) and
the number 0 is falsy. -/
def truthyIdx : Option Int → Bool
  | none => false
  | some n => n != 0

/-- Model of `TypeSafeSortedArray.prototype.includes(valueToFind, fromIndex)`. -/
def includes (s : TypeSafeSortedArray α) (valueToFind : α) (fromIndex : Option Int) : Bool :=
  let array := if truthyIdx fromIndex then jsSlice s._array (fromIndex.getD 0) none
               else s._array
  binarySearch s valueToFind array 0 ((array.length : Int) - 1) != -1

/-- Model of the inner closure `findFirstIndex(array, current)` of
`TypeSafeSortedArray.prototype.indexOf`: walk left while the preceding
element is `===`-equal to the search element. At `current = 0` the probe
`array[-1]` is `undefined`, unequal to any proper value, so the walk stops. -/
def findFirstIndex (array : List α) (searchElement : α) : Nat → Nat
  | 0 => 0
  | current + 1 =>
      if array[current]? = some searchElement then findFirstIndex array searchElement current
      else current + 1

/-- Model of the inner closure `findLastIndex(array, current)` of
`TypeSafeSortedArray.prototype.lastIndexOf`: walk right while the following
element is `===`-equal to the search element; the probe past the end is
`undefined` and stops the walk. -/
def findLastIndex (array : List α) (searchElement : α) (current : Nat) : Nat :=
  if array[current + 1]? = some searchElement then findLastIndex array searchElement (current + 1)
  else current
termination_by array.length - current
decreasing_by
  rename_i h
  have : current + 1 < array.length := by
    by_contra hlen
    simp only [not_lt] at hlen
    rw [List.getElem?_eq_none hlen] at h
    exact Option.noConfusion h
  omega

/-- Model of `TypeSafeSortedArray.prototype._fineTuneBinarySearch(callback,
searchElement, fromIndex)`: binary-search the (possibly re-based) array,
then refine the hit through the callback. Note the refined index is
returned without adding `fromIndex` back. -/
def fineTuneBinarySearch (s : TypeSafeSortedArray α) (callback : List α → Nat → Nat)
    (searchElement : α) (fromIndex : Option Int) : Int :=
  let array := if truthyIdx fromIndex then jsSlice s._array (fromIndex.getD 0) none
               else s._array
  let result := binarySearch s searchElement array 0 ((array.length : Int) - 1)
  if result != -1 then (callback array result.toNat : Int) else -1

/-- Model of `TypeSafeSortedArray.prototype.indexOf(searchElement, fromIndex)`. -/
def indexOf (s : TypeSafeSortedArray α) (searchElement : α) (fromIndex : Option Int) : Int :=
  fineTuneBinarySearch s (fun array current => findFirstIndex array searchElement current)
    searchElement fromIndex

/-- Model of `TypeSafeSortedArray.prototype.lastIndexOf(searchElement, fromIndex)`. -/
def lastIndexOf (s : TypeSafeSortedArray α) (searchElement : α) (fromIndex : Option Int) : Int :=
  fineTuneBinarySearch s (fun array current => findLastIndex array searchElement current)
    searchElement fromIndex

/-- Model of `TypeSafeSortedArray.prototype.slice(start, end)`: slice the
backing array and rebuild a sorted array with the same type and comparator
through the constructor. -/
def slice (tagOf : α → String) (s : TypeSafeSortedArray α) (start : Int)
    (stop : Option Int) : TypeSafeSortedArray α × Option ErrorTypeSafe :=
  sortedArrayNew tagOf s.type s.compare (jsSlice s._array start stop)

/-- Model of `TypeSafeSortedArray.prototype.filter(callback)`: filter the
backing array and rebuild a sorted array with the same type and comparator
through the constructor. (The JavaScript callback also receives the index
and the array; the claims only use an element predicate.) -/
def filter (tagOf : α → String) (s : TypeSafeSortedArray α) (callback : α → Bool) :
    TypeSafeSortedArray α × Option ErrorTypeSafe :=
  sortedArrayNew tagOf s.type s.compare (s._array.filter callback)

/-- The order invariant of the specification, exactly as stated there: every
adjacent pair `(e[i], e[i+1])` of the backing elements satisfies
`compare(e[i], e[i+1]) ≤ 0`. -/
def pairwiseLeB (cmp : α → α → Int) : List α → Bool
  | [] => true
  | [_] => true
  | a :: b :: rest => decide (cmp a b ≤ 0) && pairwiseLeB cmp (b :: rest)

/-- Sortedness (invariant I1): adjacent pairs compare ≤ 0. -/
abbrev SortedNonDesc (cmp : α → α → Int) (l : List α) : Prop :=
  pairwiseLeB cmp l = true

/-- Invariant I3 of the specification: the comparator is a strict weak
ordering, consistent and total over the listed elements. Packaged as the
two consequences a strict weak ordering is equivalent to on its carrier:
opposite calls have opposite signs, and non-strict dominance
(`compare ≤ 0`) is transitive. -/
abbrev ConsistentCmp (cmp : α → α → Int) (S : List α) : Prop :=
  (∀ a ∈ S, ∀ b ∈ S, (0 < cmp a b ↔ cmp b a < 0)) ∧
  (∀ a ∈ S, ∀ b ∈ S, ∀ c ∈ S, cmp a b ≤ 0 → cmp b c ≤ 0 → cmp a c ≤ 0)

end ArrayModel

section QueueStackModel

variable {α : Type} [DecidableEq α]

/-- The state of a `Queue` (`src/queue/Queue.js`): the contents of
`this._list` from linked-list head to tail, and `this._capacity`
(`none` models the default `Infinity`). The constructor pushes its items
in order, so the list holds constructor items head first. -/
structure Queue (α : Type) where
  _list : List α
  _capacity : Option Int
deriving DecidableEq, Repr

/-- Model of `new Queue(...items)` (also of `Queue.from` / `Queue.of`, which
merely spread their argument into the constructor). -/
def Queue.new (items : List α) : Queue α := ⟨items, none⟩

/-- Model of the `size` getter. -/
def Queue.size (q : Queue α) : Nat := q._list.length

/-- Model of the `capacity` setter: rejects a capacity below the current size
with `ErrorCapacity("set", ...)`. -/
def Queue.setCapacity (q : Queue α) (maxCapacity : Int) : Except ErrorCapacity (Queue α) :=
  if maxCapacity ≥ (q.size : Int) then .ok { q with _capacity := some maxCapacity }
  else .error .set

/-- The guard `this.size >= this.capacity` of `enqueue`; false when the
capacity is `Infinity`. -/
def Queue.atCapacity (q : Queue α) : Bool :=
  match q._capacity with
  | none => false
  | some c => (q.size : Int) ≥ c

/-- Model of `Queue.prototype.dequeue()`, i.e. `this._list.pop()`: remove the
tail node and return its value; on an empty list `removeByNode(null)`
returns `undefined` and changes nothing. -/
def Queue.dequeue (q : Queue α) : Option α × Queue α :=
  (q._list.getLast?, { q with _list := q._list.dropLast })

/-- One iteration of the `enqueue` loop body for a single item: evict the far
(tail) end when at capacity, then `unshift` the item onto the head. -/
def Queue.enqueueOne (q : Queue α) (item : α) : Queue α :=
  let q1 := if q.atCapacity then q.dequeue.2 else q
  { q1 with _list := item :: q1._list }

/-- Model of `Queue.prototype.enqueue(...items)`: the loop runs
`i = items.length - 1` down to `0`, unshifting `items[i]` each time. -/
def Queue.enqueue (q : Queue α) (items : List α) : Queue α :=
  items.reverse.foldl Queue.enqueueOne q

/-- Model of `Queue.prototype.peek()`, i.e. `this._list.head.value`: on an
empty queue the head is `null` and the property access raises `TypeError`. -/
def Queue.peek (q : Queue α) : Except JsRuntimeFault α :=
  match q._list with
  | [] => .error .typeError
  | v :: _ => .ok v

/-- The sequence of values obtained by dequeuing until empty (an observer for
stating FIFO properties, not a library method). -/
def Queue.dequeueAll (q : Queue α) : List α :=
  match h : q._list.getLast? with
  | none => []
  | some v => v :: Queue.dequeueAll { q with _list := q._list.dropLast }
termination_by q._list.length
decreasing_by
  have : q._list ≠ [] := by
    intro hnil
    rw [hnil] at h
    exact Option.noConfusion h
  have := List.length_pos.mpr this
  simp only [List.length_dropLast]
  omega

/-- The state of a `Stack` (`src/stack/Stack.js`): contents of `this._list`
head first, and the optional capacity. -/
structure Stack (α : Type) where
  _list : List α
  _capacity : Option Int
deriving DecidableEq, Repr

/-- Model of `new Stack(...items)`. -/
def Stack.new (items : List α) : Stack α := ⟨items, none⟩

/-- Model of `Stack.prototype.pop()`, i.e. `this._list.pop()`. -/
def Stack.pop (s : Stack α) : Option α × Stack α :=
  (s._list.getLast?, { s with _list := s._list.dropLast })

/-- Model of `Stack.prototype.peek()`, i.e. `this._list.tail.value`: on an
empty stack the tail is `null` and the property access raises `TypeError`. -/
def Stack.peek (s : Stack α) : Except JsRuntimeFault α :=
  match s._list.getLast? with
  | none => .error .typeError
  | some v => .ok v

end QueueStackModel

section LinkedListModel

variable {α : Type} [DecidableEq α]

/-- Model of `TypeSafeLinkedList.prototype.push(...items)`: append all items
when `getArrayType(items) === this.type`, otherwise throw
`ErrorTypeSafe("add", ...)`. Note `getArrayType([])` is the string
"Undefined", so pushing no items throws unless the declared type is
"Undefined". -/
def typeSafeLinkedListPush (tagOf : α → String) (type : String) (l : List α)
    (items : List α) : Except ErrorTypeSafe (List α) :=
  if getArrayType tagOf items == some type then .ok (l ++ items)
  else .error .add

/-- Model of the `TypeSafeLinkedList` constructor: throw
`ErrorTypeSafe("initialize", ...)` when the items are non-empty and not
homogeneous of the declared type; then push all items through the
type-checking `push` (which re-validates and can itself throw). The
result is the constructed list contents, or the thrown error (the `new`
expression then produces no object). -/
def typeSafeLinkedListNew (tagOf : α → String) (type : String) (items : List α) :
    Except ErrorTypeSafe (List α) :=
  if ¬ items.isEmpty ∧ ¬ (getArrayType tagOf items == some type) then .error .init
  else typeSafeLinkedListPush tagOf type [] items

end LinkedListModel

section TypeSafeWrappersModel

variable {α : Type} [DecidableEq α]

/-- Model of `TypeSafeArray.prototype.push(...items)` (`src/array/TypeSafeArray.js`):
append the items when `getArrayType(items) === this.type`
(`itemsAreOfThisArrayType`), otherwise throw `ErrorTypeSafe("add", ...)`
before touching the backing array. -/
def typeSafeArrayPush (tagOf : α → String) (type : String) (arr items : List α) :
    Except ErrorTypeSafe (List α) :=
  if getArrayType tagOf items == some type then .ok (arr ++ items)
  else .error .add

/-- Model of `TypeSafeArray.prototype.unshift(...items)`: prepend the items
under the same whole-argument-list check. -/
def typeSafeArrayUnshift (tagOf : α → String) (type : String) (arr items : List α) :
    Except ErrorTypeSafe (List α) :=
  if getArrayType tagOf items == some type then .ok (items ++ arr)
  else .error .add

/-- Model of `TypeSafeReadonlyArray.prototype.fill(value, start, end)`:
validate the single value (`isType`), then fill the clamped index range in
place; a wrong-tagged value throws `ErrorTypeSafe("assign", ...)` before
any write. -/
def typeSafeArrayFill (tagOf : α → String) (type : String) (arr : List α) (value : α)
    (start stop : Option Int) : Except ErrorTypeSafe (List α) :=
  if tagOf value == type then
    let s := match start with
      | none => 0
      | some i => jsSliceIndex arr.length i
    let e := match stop with
      | none => arr.length
      | some i => jsSliceIndex arr.length i
    .ok (arr.mapIdx (fun i x => if s ≤ i ∧ i < e then value else x))
  else .error .assign

/-- Model of `TypeSafeSortedArray.prototype.splice(start, deleteCount, ...items)`:
the items argument is discarded by design — the method forwards to the
inherited splice with no items, so it deletes only and never type-checks. -/
def sortedSplice (tagOf : α → String) (s : TypeSafeSortedArray α) (start : Int)
    (deleteCount : Option Int) (items : List α) :
    Except ErrorTypeSafe (TypeSafeSortedArray α × List α) :=
  readonlySplice tagOf s start deleteCount []

/-- Model of `TypeSafeLinkedList.prototype.unshift(...items)`: prepend all
items when `getArrayType(items) === this.type`, otherwise throw
`ErrorTypeSafe("add", ...)` before touching the chain. -/
def typeSafeLinkedListUnshift (tagOf : α → String) (type : String) (l items : List α) :
    Except ErrorTypeSafe (List α) :=
  if getArrayType tagOf items == some type then .ok (items ++ l)
  else .error .add

/-- Model of `TypeSafeLinkedList.prototype.set(index, value)`: validate the
value (`isType`), then assign through `getNodeByIndex`, which reaches a
node only for `0 ≤ index < size` (otherwise the call returns undefined and
changes nothing). The result is the new contents and the returned value. -/
def typeSafeLinkedListSet (tagOf : α → String) (type : String) (l : List α)
    (index : Int) (value : α) : Except ErrorTypeSafe (List α × Option α) :=
  if tagOf value == type then
    if 0 ≤ index ∧ index < (l.length : Int) then .ok (l.set index.toNat value, some value)
    else .ok (l, none)
  else .error .assign

/-- Model of `TypeSafeSet.prototype.add(value)` (`src/set/TypeSafeSet.js`):
validate the value, then `Set.prototype.add`, which appends the value
unless already present; the set contents are the distinct values in
insertion order. -/
def typeSafeSetAdd (tagOf : α → String) (type : String) (s : List α) (value : α) :
    Except ErrorTypeSafe (List α) :=
  if tagOf value == type then .ok (if value ∈ s then s else s ++ [value])
  else .error .assign

/-- The guard `this.size >= this.capacity` shared by stack push and queue
enqueue; false when the capacity is the default `Infinity`. -/
def sizeAtCapacity (capacity : Option Int) (l : List α) : Bool :=
  match capacity with
  | none => false
  | some c => (l.length : Int) ≥ c

/-- The loop of `Stack.prototype.push(...items)` on a `TypeSafeStack`
(whose `_list` is a `TypeSafeLinkedList`): for each item in argument
order, pop the top (list tail) when at capacity, then delegate to the
type-checking list push; a thrown error propagates, leaving the prior
insertions and evictions in place. -/
def typeSafeStackPushLoop (tagOf : α → String) (type : String) (capacity : Option Int) :
    List α → List α → List α × Option ErrorTypeSafe
  | l, [] => (l, none)
  | l, item :: rest =>
      let l1 := if sizeAtCapacity capacity l then l.dropLast else l
      match typeSafeLinkedListPush tagOf type l1 [item] with
      | .ok l2 => typeSafeStackPushLoop tagOf type capacity l2 rest
      | .error e => (l1, some e)

/-- Model of `Stack.prototype.push(...items)` on a `TypeSafeStack`. -/
def typeSafeStackPush (tagOf : α → String) (type : String) (capacity : Option Int)
    (l items : List α) : List α × Option ErrorTypeSafe :=
  typeSafeStackPushLoop tagOf type capacity l items

/-- The loop of `Queue.prototype.enqueue(...items)` on a `TypeSafeQueue`,
taken in execution order (`i = items.length - 1` down to `0`): for each
item, dequeue the far end (list tail) when at capacity, then delegate to
the type-checking list unshift. -/
def typeSafeQueueEnqueueLoop (tagOf : α → String) (type : String) (capacity : Option Int) :
    List α → List α → List α × Option ErrorTypeSafe
  | l, [] => (l, none)
  | l, item :: rest =>
      let l1 := if sizeAtCapacity capacity l then l.dropLast else l
      match typeSafeLinkedListUnshift tagOf type l1 [item] with
      | .ok l2 => typeSafeQueueEnqueueLoop tagOf type capacity l2 rest
      | .error e => (l1, some e)

/-- Model of `Queue.prototype.enqueue(...items)` on a `TypeSafeQueue`: the
loop runs over the reversed argument list. -/
def typeSafeQueueEnqueue (tagOf : α → String) (type : String) (capacity : Option Int)
    (l items : List α) : List α × Option ErrorTypeSafe :=
  typeSafeQueueEnqueueLoop tagOf type capacity l items.reverse

end TypeSafeWrappersModel

section UnfoldLemmas

variable {α : Type} [DecidableEq α]

theorem getI_eq_some (l : List α) (i : Int) (h0 : 0 ≤ i) (hn : i.toNat < l.length) :
    getI l i = some (l.get ⟨i.toNat, hn⟩) := by
  simp [getI, h0, List.getElem?_eq_getElem hn]

theorem findInsertionIndex_base (s : TypeSafeSortedArray α) (item : α) (left right : Int)
    (h : left ≥ right) : findInsertionIndex s item left right = left := by
  rw [findInsertionIndex]
  simp [h]

theorem findInsertionIndex_step (s : TypeSafeSortedArray α) (item : α) (left right : Int)
    (v : α) (h : ¬ left ≥ right) (hv : getI s._array ((left + right) / 2) = some v) :
    findInsertionIndex s item left right =
      if s.compare v item > 0 then findInsertionIndex s item left ((left + right) / 2)
      else findInsertionIndex s item ((left + right) / 2 + 1) right := by
  rw [findInsertionIndex]
  simp [h, hv]

theorem binarySearch_base (s : TypeSafeSortedArray α) (item : α) (array : List α)
    (left right : Int) (h : ¬ right ≥ left) :
    binarySearch s item array left right = -1 := by
  rw [binarySearch]
  simp [h]

theorem binarySearch_step (s : TypeSafeSortedArray α) (item : α) (array : List α)
    (left right : Int) (v : α) (h : right ≥ left)
    (hv : getI array (left + (right - left) / 2) = some v) :
    binarySearch s item array left right =
      if v = item then left + (right - left) / 2
      else if s.compare v item > 0 then
        binarySearch s item array left (left + (right - left) / 2 - 1)
      else binarySearch s item array (left + (right - left) / 2 + 1) right := by
  rw [binarySearch]
  simp [h, hv]

theorem findLastIndex_stop (array : List α) (x : α) (current : Nat)
    (h : ¬ array[current + 1]? = some x) : findLastIndex array x current = current := by
  rw [findLastIndex]
  simp [h]

theorem findLastIndex_go (array : List α) (x : α) (current : Nat)
    (h : array[current + 1]? = some x) :
    findLastIndex array x current = findLastIndex array x (current + 1) := by
  rw [findLastIndex]
  simp [h]

theorem dequeueAll_nil (cap : Option Int) :
    Queue.dequeueAll (⟨[], cap⟩ : Queue α) = [] := by
  rw [Queue.dequeueAll]
  split
  · rfl
  · rename_i v heq
    exact Option.noConfusion heq

theorem dequeueAll_concat (l : List α) (a : α) (cap : Option Int) :
    Queue.dequeueAll (⟨l ++ [a], cap⟩ : Queue α) =
      a :: Queue.dequeueAll (⟨l, cap⟩ : Queue α) := by
  rw [Queue.dequeueAll]
  split
  · rename_i heq
    simp only [List.getLast?_concat] at heq
    exact Option.noConfusion heq
  · rename_i v heq
    simp only [List.getLast?_concat, Option.some.injEq] at heq
    subst heq
    simp [List.dropLast_concat]

/-- Dequeuing a queue to exhaustion returns the internal list tail first. -/
theorem dequeueAll_eq_reverse (l : List α) (cap : Option Int) :
    Queue.dequeueAll (⟨l, cap⟩ : Queue α) = l.reverse := by
  induction l using List.reverseRecOn with
  | nil => rw [dequeueAll_nil]; rfl
  | append_singleton xs x ih =>
      rw [dequeueAll_concat, ih]
      simp

/-- Enqueuing on an unbounded queue prepends the argument list as a block. -/
theorem enqueue_unbounded (l : List α) (items : List α) :
    Queue.enqueue (⟨l, none⟩ : Queue α) items = ⟨items ++ l, none⟩ := by
  suffices h : ∀ ys zs : List α, List.foldl Queue.enqueueOne (⟨zs, none⟩ : Queue α) ys =
      ⟨ys.reverse ++ zs, none⟩ by
    rw [Queue.enqueue, h]
    simp
  intro ys
  induction ys with
  | nil => intro zs; rfl
  | cons y ys ih =>
      intro zs
      rw [List.foldl_cons, show Queue.enqueueOne (⟨zs, none⟩ : Queue α) y =
        (⟨y :: zs, none⟩ : Queue α) from rfl, ih]
      simp

end UnfoldLemmas

section EasyClaims

/-- C6: with capacity 2, enqueue(1), enqueue(2), enqueue(3) raises no error
(the capacity setter accepts 2 on the empty queue and enqueue is total),
leaves exactly two elements, evicts the oldest admitted element 1, and the
final contents dequeue as [2, 3] oldest first; in general an enqueue onto a
full queue first dequeues the far (oldest) end, then admits the new element. -/
theorem bounded_queue_evicts_oldest :
    ((Queue.new ([] : List Int)).setCapacity 2 = .ok ⟨[], some 2⟩) ∧
    (((((⟨[], some 2⟩ : Queue Int).enqueue [1]).enqueue [2]).enqueue [3])._list = [3, 2] ∧
     ((((⟨[], some 2⟩ : Queue Int).enqueue [1]).enqueue [2]).enqueue [3]).size = 2 ∧
     ((((⟨[], some 2⟩ : Queue Int).enqueue [1]).enqueue [2]).enqueue [3]).dequeue.1 = some 2 ∧
     ((((⟨[], some 2⟩ : Queue Int).enqueue [1]).enqueue [2]).enqueue [3]).dequeue.2.dequeue.1
       = some 3 ∧
     (1 : Int) ∉ ((((⟨[], some 2⟩ : Queue Int).enqueue [1]).enqueue [2]).enqueue [3])._list) ∧
    (∀ (q : Queue Int) (x c : Int), q._capacity = some c → c ≤ (q.size : Int) →
      (q.enqueue [x])._list = x :: q._list.dropLast) := by
  refine ⟨rfl, by decide, ?_⟩
  intro q x c hcap hle
  have hat : q.atCapacity = true := by
    rw [Queue.atCapacity, hcap]
    simp only [ge_iff_le, decide_eq_true_eq]
    exact hle
  simp [Queue.enqueue, Queue.enqueueOne, hat, Queue.dequeue]

/-- C6 witness: the general eviction clause applied to the concrete full queue
[5, 6] with capacity 2 and new element 7. -/
theorem bounded_queue_evicts_oldest_witness :
    (⟨[5, 6], some 2⟩ : Queue Int)._capacity = some 2 ∧
    (2 : Int) ≤ ((⟨[5, 6], some 2⟩ : Queue Int).size : Int) ∧
    ((⟨[5, 6], some 2⟩ : Queue Int).enqueue [7])._list = 7 :: [5, 6].dropLast :=
  ⟨rfl, by decide, bounded_queue_evicts_oldest.2.2 ⟨[5, 6], some 2⟩ 7 2 rfl (by decide)⟩

/-- C8 counterexample: the claim states FIFO order also for constructor-supplied
items and for a single multi-argument enqueue call; but a queue built from
the items 1, 2 (or an empty queue after enqueue(1, 2)) dequeues 2 first,
not the first-admitted 1. -/
theorem queue_fifo_claim_counterexample :
    (Queue.new ([1, 2] : List Int)).dequeue.1 = some 2 ∧
    (Queue.new ([1, 2] : List Int)).dequeue.1 ≠ some 1 ∧
    ((Queue.new ([] : List Int)).enqueue [1, 2]).dequeue.1 = some 2 ∧
    ((Queue.new ([] : List Int)).enqueue [1, 2]).dequeue.1 ≠ some 1 := by
  decide

/-- C8 amended: on an unbounded queue, FIFO holds for elements admitted by
successive single-argument enqueue calls; elements supplied to the
constructor (or Queue.from/of), and the arguments of one multi-argument
enqueue call, are instead dequeued in reverse of the supplied order. -/
theorem queue_fifo_amended (α : Type) [DecidableEq α] :
    ∀ xs : List α,
      Queue.dequeueAll (xs.foldl (fun q x => q.enqueue [x]) (Queue.new [])) = xs ∧
      Queue.dequeueAll (Queue.new xs) = xs.reverse ∧
      Queue.dequeueAll ((Queue.new ([] : List α)).enqueue xs) = xs.reverse := by
  intro xs
  have hsingle : ∀ (zs : List α) (x : α),
      Queue.enqueue (⟨zs, none⟩ : Queue α) [x] = ⟨x :: zs, none⟩ := by
    intro zs x
    rw [enqueue_unbounded]
    rfl
  refine ⟨?_, ?_, ?_⟩
  · suffices h : ∀ zs : List α,
        xs.foldl (fun q x => q.enqueue [x]) (⟨zs, none⟩ : Queue α) =
          ⟨xs.reverse ++ zs, none⟩ by
      rw [Queue.new, h [], dequeueAll_eq_reverse]
      simp
    induction xs with
    | nil => intro zs; rfl
    | cons y ys ih =>
        intro zs
        rw [List.foldl_cons, hsingle, ih]
        simp
  · rw [Queue.new, dequeueAll_eq_reverse]
  · rw [Queue.new, enqueue_unbounded, dequeueAll_eq_reverse]
    simp

/-- C10: on the empty queue and the empty stack, peek dereferences a null
head/tail node and fails with a runtime TypeError, while dequeue and pop
return undefined and leave the container unchanged. -/
theorem empty_peek_faults_remove_returns_undefined :
    (Queue.new ([] : List Int)).peek = .error .typeError ∧
    (Queue.new ([] : List Int)).dequeue = (none, Queue.new ([] : List Int)) ∧
    (Stack.new ([] : List Int)).peek = .error .typeError ∧
    (Stack.new ([] : List Int)).pop = (none, Stack.new ([] : List Int)) :=
  ⟨rfl, rfl, rfl, rfl⟩

/-- C7 code divergence: constructing an empty TypeSafeLinkedList of declared
type "Number" throws ErrorTypeSafe("add", [], "Number"), because the
constructor unconditionally calls push with no items and
getArrayType([]) is the string "Undefined", which differs from "Number";
a homogeneous non-empty construction succeeds, and a wrong-typed one
throws, so the divergence is specific to the empty case. -/
theorem typed_list_empty_construction_throws :
    typeSafeLinkedListNew getType "Number" [] = .error .add ∧
    typeSafeLinkedListNew getType "Number" [.num 1, .num 2] = .ok [.num 1, .num 2] ∧
    typeSafeLinkedListNew getType "Number" [.num 1, .str "a"] = .error .init :=
  ⟨rfl, rfl, rfl⟩

end EasyClaims

section SortedTheory

variable {α : Type} [DecidableEq α]

/-- A chain of adjacent comparisons gives all pairwise comparisons when the
comparator is transitive over the listed elements. -/
theorem pairwise_of_sortedNonDesc (cmp : α → α → Int) :
    ∀ l : List α,
      (∀ a ∈ l, ∀ b ∈ l, ∀ c ∈ l, cmp a b ≤ 0 → cmp b c ≤ 0 → cmp a c ≤ 0) →
      SortedNonDesc cmp l → List.Pairwise (fun a b => cmp a b ≤ 0) l := by
  intro l
  induction l with
  | nil => intro _ _; exact List.Pairwise.nil
  | cons a tl ih =>
      intro htr hs
      cases tl with
      | nil => simp
      | cons b rest =>
          simp only [SortedNonDesc, pairwiseLeB, Bool.and_eq_true, decide_eq_true_eq] at hs
          obtain ⟨hab, hs2⟩ := hs
          have htr2 : ∀ x ∈ b :: rest, ∀ y ∈ b :: rest, ∀ z ∈ b :: rest,
              cmp x y ≤ 0 → cmp y z ≤ 0 → cmp x z ≤ 0 := fun x hx y hy z hz =>
            htr x (List.mem_cons_of_mem a hx) y (List.mem_cons_of_mem a hy)
              z (List.mem_cons_of_mem a hz)
          have htl := ih htr2 hs2
          refine List.Pairwise.cons ?_ htl
          intro x hx
          rcases List.mem_cons.mp hx with h1 | h2
          · rw [h1]; exact hab
          · have hbx := List.rel_of_pairwise_cons htl h2
            exact htr a (List.mem_cons_self a _) b (by simp) x
              (List.mem_cons_of_mem a hx) hab hbx

/-- Adjacent comparisons are among the pairwise ones. -/
theorem sortedNonDesc_of_pairwise (cmp : α → α → Int) :
    ∀ l : List α, List.Pairwise (fun a b => cmp a b ≤ 0) l → SortedNonDesc cmp l := by
  intro l
  induction l with
  | nil => intro _; rfl
  | cons a tl ih =>
      intro hp
      cases tl with
      | nil => rfl
      | cons b rest =>
          obtain ⟨hhead, htl⟩ := List.pairwise_cons.mp hp
          simp only [SortedNonDesc, pairwiseLeB, Bool.and_eq_true, decide_eq_true_eq]
          exact ⟨hhead b (by simp), ih htl⟩

/-- Correctness of the insertion-point binary search on a range carrying the
standard invariants: everything left of `left` compares ≤ 0 against the
item, everything at or right of `right` compares > 0; the result then
splits the whole array the same way. -/
theorem findInsertionIndex_go (s : TypeSafeSortedArray α) (item : α)
    (htr : ∀ a ∈ s._array, ∀ b ∈ s._array,
      s.compare a b ≤ 0 → s.compare b item ≤ 0 → s.compare a item ≤ 0)
    (hp : ∀ (i j : Nat) (hi : i < s._array.length) (hj : j < s._array.length),
      i < j → s.compare s._array[i] s._array[j] ≤ 0) :
    ∀ (d : Nat) (left right : Int), (right - left).toNat ≤ d →
      0 ≤ left → left ≤ right → right ≤ (s._array.length : Int) →
      (∀ (i : Nat) (hi : i < s._array.length), (i : Int) < left →
        s.compare s._array[i] item ≤ 0) →
      (∀ (i : Nat) (hi : i < s._array.length), right ≤ (i : Int) →
        0 < s.compare s._array[i] item) →
      left ≤ findInsertionIndex s item left right ∧
      findInsertionIndex s item left right ≤ right ∧
      (∀ (i : Nat) (hi : i < s._array.length),
        (i : Int) < findInsertionIndex s item left right → s.compare s._array[i] item ≤ 0) ∧
      (∀ (i : Nat) (hi : i < s._array.length),
        findInsertionIndex s item left right ≤ (i : Int) → 0 < s.compare s._array[i] item) := by
  intro d
  induction d with
  | zero =>
      intro left right hd h0 hlr hrn hL hR
      rw [findInsertionIndex_base s item left right (by omega)]
      exact ⟨le_refl _, by omega, hL, fun i hi hge => hR i hi (by omega)⟩
  | succ d ih =>
      intro left right hd h0 hlr hrn hL hR
      by_cases hge : left ≥ right
      · rw [findInsertionIndex_base s item left right hge]
        exact ⟨le_refl _, by omega, hL, fun i hi hge2 => hR i hi (by omega)⟩
      · have hlt : left < right := by omega
        have hmb : left ≤ (left + right) / 2 ∧ (left + right) / 2 < right := by omega
        have hm0 : (0 : Int) ≤ (left + right) / 2 := by omega
        have hmn : ((left + right) / 2).toNat < s._array.length := by omega
        rw [findInsertionIndex_step s item left right _ hge (getI_eq_some _ _ hm0 hmn)]
        rw [List.get_eq_getElem]
        by_cases hgt : s.compare s._array[((left + right) / 2).toNat] item > 0
        · rw [if_pos hgt]
          have hRnew : ∀ (i : Nat) (hi : i < s._array.length),
              (left + right) / 2 ≤ (i : Int) → 0 < s.compare s._array[i] item := by
            intro i hi hge2
            by_cases hieq : i = ((left + right) / 2).toNat
            · subst hieq; exact hgt
            · by_cases hir : right ≤ (i : Int)
              · exact hR i hi hir
              · have hp2 := hp ((left + right) / 2).toNat i hmn hi (by omega)
                by_contra hcon
                push_neg at hcon
                have := htr s._array[((left + right) / 2).toNat] (List.getElem_mem hmn)
                  s._array[i] (List.getElem_mem hi) hp2 hcon
                omega
          obtain ⟨h1, h2, h3, h4⟩ :=
            ih left ((left + right) / 2) (by omega) h0 (by omega) (by omega) hL hRnew
          exact ⟨h1, by omega, h3, h4⟩
        · rw [if_neg hgt]
          have hle : s.compare s._array[((left + right) / 2).toNat] item ≤ 0 := by omega
          have hLnew : ∀ (i : Nat) (hi : i < s._array.length),
              (i : Int) < (left + right) / 2 + 1 → s.compare s._array[i] item ≤ 0 := by
            intro i hi hlt2
            by_cases hieq : i = ((left + right) / 2).toNat
            · subst hieq; exact hle
            · have hp2 := hp i ((left + right) / 2).toNat hi hmn (by omega)
              exact htr s._array[i] (List.getElem_mem hi)
                s._array[((left + right) / 2).toNat] (List.getElem_mem hmn) hp2 hle
          obtain ⟨h1, h2, h3, h4⟩ :=
            ih ((left + right) / 2 + 1) right (by omega) (by omega) (by omega) hrn hLnew hR
          exact ⟨by omega, h2, h3, h4⟩

/-- The pairwise form of sortedness for the backing array of a sorted array
whose comparator is consistent over the elements together with an item. -/
theorem pairwise_backing (s : TypeSafeSortedArray α) (item : α)
    (hs : SortedNonDesc s.compare s._array)
    (hc : ConsistentCmp s.compare (item :: s._array)) :
    List.Pairwise (fun a b => s.compare a b ≤ 0) s._array :=
  pairwise_of_sortedNonDesc s.compare s._array
    (fun a ha b hb c hcm => hc.2 a (List.mem_cons_of_mem item ha)
      b (List.mem_cons_of_mem item hb) c (List.mem_cons_of_mem item hcm)) hs

/-- C3 core: the insertion-point search over the whole backing array of a
sorted, comparator-consistent array returns the index with every element
before it comparing ≤ 0 against the item and every element from it on
comparing > 0. -/
theorem findInsertionIndex_spec (s : TypeSafeSortedArray α) (item : α)
    (hs : SortedNonDesc s.compare s._array)
    (hc : ConsistentCmp s.compare (item :: s._array)) :
    0 ≤ findInsertionIndex s item 0 s._array.length ∧
    findInsertionIndex s item 0 s._array.length ≤ (s._array.length : Int) ∧
    (∀ (i : Nat) (hi : i < s._array.length),
      (i : Int) < findInsertionIndex s item 0 s._array.length →
      s.compare s._array[i] item ≤ 0) ∧
    (∀ (i : Nat) (hi : i < s._array.length),
      findInsertionIndex s item 0 s._array.length ≤ (i : Int) →
      0 < s.compare s._array[i] item) := by
  have htr : ∀ a ∈ s._array, ∀ b ∈ s._array,
      s.compare a b ≤ 0 → s.compare b item ≤ 0 → s.compare a item ≤ 0 := by
    intro a ha b hb h1 h2
    exact hc.2 a (List.mem_cons_of_mem item ha) b (List.mem_cons_of_mem item hb)
      item (List.mem_cons_self item _) h1 h2
  have hp : ∀ (i j : Nat) (hi : i < s._array.length) (hj : j < s._array.length),
      i < j → s.compare s._array[i] s._array[j] ≤ 0 := by
    intro i j hi hj hij
    exact List.pairwise_iff_getElem.mp (pairwise_backing s item hs hc) i j hi hj hij
  obtain ⟨h1, h2, h3, h4⟩ := findInsertionIndex_go s item htr hp
    s._array.length 0 (s._array.length : Int) (by omega) (by omega) (by omega) (le_refl _)
    (fun i hi hneg => by omega)
    (fun i hi hge => by omega)
  exact ⟨h1, h2, h3, h4⟩

end SortedTheory

section InsertionTheory

variable {α : Type} [DecidableEq α]

/-- Consistency of a comparator restricts to subsets of elements. -/
theorem consistentCmp_mono (cmp : α → α → Int) (S T : List α)
    (hsub : ∀ x ∈ S, x ∈ T) (h : ConsistentCmp cmp T) : ConsistentCmp cmp S :=
  ⟨fun a ha b hb => h.1 a (hsub a ha) b (hsub b hb),
   fun a ha b hb c hcm h1 h2 => h.2 a (hsub a ha) b (hsub b hb) c (hsub c hcm) h1 h2⟩

/-- Inserting an item at an index that splits the list into a prefix
comparing ≤ 0 against it and a suffix comparing > 0 preserves
pairwise sortedness (the suffix side uses sign consistency). -/
theorem sorted_insert_at (cmp : α → α → Int) (l : List α) (item : α) (k : Nat)
    (hP : List.Pairwise (fun a b => cmp a b ≤ 0) l)
    (hflip : ∀ a ∈ l, 0 < cmp a item → cmp item a < 0)
    (hbelow : ∀ (i : Nat) (hi : i < l.length), i < k → cmp l[i] item ≤ 0)
    (habove : ∀ (i : Nat) (hi : i < l.length), k ≤ i → 0 < cmp l[i] item) :
    List.Pairwise (fun a b => cmp a b ≤ 0) (l.take k ++ item :: l.drop k) := by
  have hP2 : List.Pairwise (fun a b => cmp a b ≤ 0) (l.take k ++ l.drop k) := by
    rw [List.take_append_drop k l]; exact hP
  obtain ⟨hPt, hPd, hcross⟩ := List.pairwise_append.mp hP2
  have hbelow2 : ∀ x ∈ l.take k, cmp x item ≤ 0 := by
    intro x hx
    obtain ⟨j, hj, hje⟩ := List.mem_iff_getElem.mp hx
    have hjk : j < k ∧ j < l.length := by
      have := hj
      rw [List.length_take] at this
      omega
    rw [List.getElem_take] at hje
    rw [← hje]
    exact hbelow j hjk.2 hjk.1
  have habove2 : ∀ x ∈ l.drop k, 0 < cmp x item := by
    intro x hx
    obtain ⟨j, hj, hje⟩ := List.mem_iff_getElem.mp hx
    have hjl : k + j < l.length := by
      have := hj
      rw [List.length_drop] at this
      omega
    rw [List.getElem_drop] at hje
    rw [← hje]
    exact habove (k + j) hjl (by omega)
  rw [List.pairwise_append]
  refine ⟨hPt, ?_, ?_⟩
  · rw [List.pairwise_cons]
    refine ⟨?_, hPd⟩
    intro x hx
    exact le_of_lt (hflip x ((List.drop_sublist k l).subset hx) (habove2 x hx))
  · intro a ha b hb
    rcases List.mem_cons.mp hb with h1 | h2
    · rw [h1]
      exact hbelow2 a ha
    · exact hcross a ha b h2

/-- The inherited splice, used by `add` with deleteCount 0 and a single item of
the declared type, inserts the item at the (clamped) start index. -/
theorem readonlySplice_insert (tagOf : α → String) (s : TypeSafeSortedArray α)
    (idx : Int) (item : α) (h0 : 0 ≤ idx) (hn : idx ≤ (s._array.length : Int))
    (htag : tagOf item = s.type) :
    readonlySplice tagOf s idx (some 0) [item] =
      .ok ({ s with _array :=
        s._array.take idx.toNat ++ item :: s._array.drop idx.toNat }, []) := by
  have hga : getArrayType tagOf [item] = some s.type := by
    simp [getArrayType, htag]
  rw [readonlySplice, hga]
  have hcond : (([item] : List α).isEmpty || (some s.type == some s.type)) = true := by simp
  rw [if_pos hcond]
  have hstart : jsSliceIndex s._array.length idx = idx.toNat := by
    rw [jsSliceIndex, if_neg (by omega)]
    omega
  simp [jsSplice, hstart]

/-- The inherited splice throws `ErrorTypeSafe("add", ...)` on a single item of
the wrong tag, mutating nothing. -/
theorem readonlySplice_insert_bad (tagOf : α → String) (s : TypeSafeSortedArray α)
    (start : Int) (dc : Option Int) (item : α) (htag : tagOf item ≠ s.type) :
    readonlySplice tagOf s start dc [item] = .error .add := by
  have hga : getArrayType tagOf [item] = some (tagOf item) := by
    simp [getArrayType]
  rw [readonlySplice, hga]
  rw [if_neg]
  simp only [List.isEmpty_cons, Bool.false_or, beq_iff_eq, Option.some.injEq]
  exact htag

/-- The inherited splice on a well-tagged single item always succeeds,
yielding an array-only update of the state. -/
theorem readonlySplice_single_ok (tagOf : α → String) (s : TypeSafeSortedArray α)
    (start : Int) (dc : Option Int) (item : α) (htag : tagOf item = s.type) :
    readonlySplice tagOf s start dc [item] =
      .ok ({ s with _array := (jsSplice s._array start (dc.getD 0) [item]).2 },
        (jsSplice s._array start (dc.getD 0) [item]).1) := by
  rw [readonlySplice, if_pos]
  simp [getArrayType, htag]

/-- C1: for a sorted array whose comparator is consistent over the elements
present and the items being added, every add call leaves every adjacent
pair of the backing elements comparing ≤ 0 — including calls that throw
part-way through on a wrong-typed item. Applying this theorem along a
sequence of calls gives the invariant after each call. -/
theorem order_invariant_after_add (tagOf : α → String) :
    ∀ (items : List α) (s : TypeSafeSortedArray α),
      SortedNonDesc s.compare s._array →
      ConsistentCmp s.compare (s._array ++ items) →
      SortedNonDesc s.compare (add tagOf s items).1._array := by
  intro items
  induction items with
  | nil => intro s hs _; exact hs
  | cons item rest ih =>
      intro s hs hc
      have hcs : ConsistentCmp s.compare (item :: s._array) :=
        consistentCmp_mono _ _ _ (by intro x hx; rcases List.mem_cons.mp hx with h | h
                                     · simp [h]
                                     · simp [h]) hc
      obtain ⟨h0, hn, hbel, habv⟩ := findInsertionIndex_spec s item hs hcs
      rw [add]
      by_cases htag : tagOf item = s.type
      · rw [readonlySplice_insert tagOf s _ item h0 hn htag]
        set k : Nat := (findInsertionIndex s item 0 s._array.length).toNat with hk
        have hs2 : SortedNonDesc s.compare
            (s._array.take k ++ item :: s._array.drop k) := by
          apply sortedNonDesc_of_pairwise
          apply sorted_insert_at s.compare s._array item k
            (pairwise_backing s item hs hcs)
          · intro a ha hgt
            exact (hcs.1 a (List.mem_cons_of_mem item ha) item
              (List.mem_cons_self item _)).mp hgt
          · intro i hi hik
            exact hbel i hi (by omega)
          · intro i hi hik
            exact habv i hi (by omega)
        have hc2 : ConsistentCmp s.compare
            ((s._array.take k ++ item :: s._array.drop k) ++ rest) := by
          apply consistentCmp_mono s.compare _ (s._array ++ item :: rest) _ hc
          intro x hx
          simp only [List.mem_append, List.mem_cons] at hx ⊢
          rcases hx with (h | h | h) | h
          · exact Or.inl ((List.take_sublist k s._array).subset h)
          · exact Or.inr (Or.inl h)
          · exact Or.inl ((List.drop_sublist k s._array).subset h)
          · exact Or.inr (Or.inr h)
        exact ih { s with _array := s._array.take k ++ item :: s._array.drop k } hs2 hc2
      · rw [readonlySplice_insert_bad tagOf s _ _ item htag]
        exact hs

/-- An add call never changes the declared type or the comparator. -/
theorem add_type_compare (tagOf : α → String) :
    ∀ (items : List α) (s : TypeSafeSortedArray α),
      (add tagOf s items).1.compare = s.compare ∧ (add tagOf s items).1.type = s.type := by
  intro items
  induction items with
  | nil => intro s; exact ⟨rfl, rfl⟩
  | cons item rest ih =>
      intro s
      by_cases htag : tagOf item = s.type
      · rw [add, readonlySplice_single_ok tagOf s _ (some 0) item htag]
        exact ih _
      · rw [add, readonlySplice_insert_bad tagOf s _ (some 0) item htag]
        exact ⟨rfl, rfl⟩

/-- The elements present after an add call all come from the previous
elements or the added items. -/
theorem add_subset (tagOf : α → String) :
    ∀ (items : List α) (s : TypeSafeSortedArray α),
      ∀ x ∈ (add tagOf s items).1._array, x ∈ s._array ∨ x ∈ items := by
  intro items
  induction items with
  | nil => intro s x hx; exact Or.inl hx
  | cons item rest ih =>
      intro s x hx
      by_cases htag : tagOf item = s.type
      · rw [add, readonlySplice_single_ok tagOf s _ (some 0) item htag] at hx
        rcases ih _ x hx with hmem | hmem
        · simp only [jsSplice] at hmem
          rcases List.mem_append.mp hmem with h | h
          · rcases List.mem_append.mp h with h2 | h2
            · exact Or.inl ((List.take_sublist _ _).subset h2)
            · exact Or.inr (by simp at h2; simp [h2])
          · exact Or.inl ((List.drop_sublist _ _).subset h)
        · exact Or.inr (List.mem_cons_of_mem item hmem)
      · rw [add, readonlySplice_insert_bad tagOf s _ (some 0) item htag] at hx
        exact Or.inl hx

/-- C1: for a sorted array whose comparator is consistent over the elements
present and every item of an arbitrary sequence of add calls, after each
call of the sequence every adjacent pair of the backing elements compares
≤ 0. -/
theorem order_invariant_after_each_call (tagOf : α → String)
    (calls : List (List α)) (s : TypeSafeSortedArray α)
    (hs : SortedNonDesc s.compare s._array)
    (hc : ConsistentCmp s.compare (s._array ++ calls.flatten)) :
    ∀ k : Nat, SortedNonDesc s.compare
      (((calls.take k).foldl (fun st c => (add tagOf st c).1) s)._array) := by
  have hmain : ∀ (cs : List (List α)) (t : TypeSafeSortedArray α),
      t.compare = s.compare →
      SortedNonDesc s.compare t._array →
      ConsistentCmp s.compare (t._array ++ cs.flatten) →
      SortedNonDesc s.compare ((cs.foldl (fun st c => (add tagOf st c).1) t)._array) := by
    intro cs
    induction cs with
    | nil => intro t _ ht _; exact ht
    | cons c rest ih =>
        intro t hcmp ht hct
        rw [List.foldl_cons]
        apply ih (add tagOf t c).1
        · rw [(add_type_compare tagOf c t).1]
          exact hcmp
        · have := order_invariant_after_add tagOf c t (by rw [hcmp]; exact ht)
            (by rw [hcmp]
                apply consistentCmp_mono _ _ _ ?_ hct
                intro x hx
                simp only [List.mem_append, List.flatten_cons] at hx ⊢
                rcases hx with h | h
                · exact Or.inl h
                · exact Or.inr (Or.inl h))
          rw [hcmp] at this
          exact this
        · apply consistentCmp_mono _ _ _ ?_ hct
          intro x hx
          rcases List.mem_append.mp hx with h | h
          · rcases add_subset tagOf c t x h with h2 | h2
            · exact List.mem_append.mpr (Or.inl h2)
            · refine List.mem_append.mpr (Or.inr ?_)
              rw [List.flatten_cons]
              exact List.mem_append.mpr (Or.inl h2)
          · refine List.mem_append.mpr (Or.inr ?_)
            rw [List.flatten_cons]
            exact List.mem_append.mpr (Or.inr h)
  intro k
  apply hmain (calls.take k) s rfl hs
  apply consistentCmp_mono _ _ _ ?_ hc
  intro x hx
  rcases List.mem_append.mp hx with h | h
  · exact List.mem_append.mpr (Or.inl h)
  · obtain ⟨c, hcmem, hxc⟩ := List.mem_flatten.mp h
    exact List.mem_append.mpr (Or.inr (List.mem_flatten.mpr
      ⟨c, (List.take_sublist k calls).subset hcmem, hxc⟩))

/-- C1 witness: the order invariant applied to the Number array [1, 3]
(numeric comparator) with the call sequence add(2, 0); add(4), checked
after the second call. -/
theorem order_invariant_after_each_call_witness :
    SortedNonDesc (fun a b : Int => a - b) [1, 3] ∧
    ConsistentCmp (fun a b : Int => a - b) ([1, 3] ++ ([[2, 0], [4]] :
      List (List Int)).flatten) ∧
    SortedNonDesc (fun a b : Int => a - b)
      (((([[2, 0], [4]] : List (List Int)).take 2).foldl
        (fun st c => (add (fun _ => "Number") st c).1)
        ⟨"Number", fun a b : Int => a - b, [1, 3]⟩)._array) :=
  ⟨by decide, ⟨by decide, by decide⟩,
   order_invariant_after_each_call (fun _ => "Number") [[2, 0], [4]]
     ⟨"Number", fun a b : Int => a - b, [1, 3]⟩ (by decide) ⟨by decide, by decide⟩ 2⟩

end InsertionTheory

section StabilityAndRoundTrip

variable {α : Type} [DecidableEq α]

/-- C3: on a sorted array with a comparator consistent over the elements and
the new item, the insertion-index search yields the point with every
element before it comparing ≤ 0 against the item and every element from it
on comparing strictly greater, and a single-item add of the declared type
inserts exactly there — so a new equal-ranked key lands immediately after
all existing equal-ranked keys (FIFO among ties) and before all strictly
greater ones. -/
theorem insertion_stability (tagOf : α → String) (s : TypeSafeSortedArray α) (item : α)
    (hs : SortedNonDesc s.compare s._array)
    (hc : ConsistentCmp s.compare (item :: s._array))
    (htag : tagOf item = s.type) :
    0 ≤ findInsertionIndex s item 0 s._array.length ∧
    findInsertionIndex s item 0 s._array.length ≤ (s._array.length : Int) ∧
    (∀ (i : Nat) (hi : i < s._array.length),
      (i : Int) < findInsertionIndex s item 0 s._array.length →
      s.compare s._array[i] item ≤ 0) ∧
    (∀ (i : Nat) (hi : i < s._array.length),
      findInsertionIndex s item 0 s._array.length ≤ (i : Int) →
      0 < s.compare s._array[i] item) ∧
    (add tagOf s [item]).1._array =
      s._array.take (findInsertionIndex s item 0 s._array.length).toNat ++
        item :: s._array.drop (findInsertionIndex s item 0 s._array.length).toNat ∧
    (add tagOf s [item]).2 = none := by
  obtain ⟨h0, hn, hbel, habv⟩ := findInsertionIndex_spec s item hs hc
  have hstep : add tagOf s [item] =
      ({ s with _array :=
        s._array.take (findInsertionIndex s item 0 s._array.length).toNat ++
          item :: s._array.drop (findInsertionIndex s item 0 s._array.length).toNat }, none) := by
    simp only [add]
    rw [readonlySplice_insert tagOf s _ item h0 hn htag]
  exact ⟨h0, hn, hbel, habv, by rw [hstep], by rw [hstep]⟩

/-- C3 witness: the stability properties applied to the Number array
[1, 2, 2, 3] with a new item 2 (numeric comparator). -/
theorem insertion_stability_witness :
    SortedNonDesc (fun a b : Int => a - b) [1, 2, 2, 3] ∧
    ConsistentCmp (fun a b : Int => a - b) (2 :: [1, 2, 2, 3]) ∧
    (fun _ : Int => "Number") 2 = "Number" ∧
    (0 ≤ findInsertionIndex ⟨"Number", fun a b : Int => a - b, [1, 2, 2, 3]⟩ 2 0 4 ∧
     findInsertionIndex ⟨"Number", fun a b : Int => a - b, [1, 2, 2, 3]⟩ 2 0 4 ≤ 4 ∧
     (∀ (i : Nat) (hi : i < ([1, 2, 2, 3] : List Int).length),
       (i : Int) < findInsertionIndex ⟨"Number", fun a b : Int => a - b, [1, 2, 2, 3]⟩ 2 0 4 →
       (fun a b : Int => a - b) ([1, 2, 2, 3] : List Int)[i] 2 ≤ 0) ∧
     (∀ (i : Nat) (hi : i < ([1, 2, 2, 3] : List Int).length),
       findInsertionIndex ⟨"Number", fun a b : Int => a - b, [1, 2, 2, 3]⟩ 2 0 4 ≤ (i : Int) →
       0 < (fun a b : Int => a - b) ([1, 2, 2, 3] : List Int)[i] 2) ∧
     (add (fun _ => "Number") ⟨"Number", fun a b : Int => a - b, [1, 2, 2, 3]⟩ [2]).1._array =
       ([1, 2, 2, 3] : List Int).take
           (findInsertionIndex ⟨"Number", fun a b : Int => a - b, [1, 2, 2, 3]⟩ 2 0 4).toNat ++
         2 :: ([1, 2, 2, 3] : List Int).drop
           (findInsertionIndex ⟨"Number", fun a b : Int => a - b, [1, 2, 2, 3]⟩ 2 0 4).toNat ∧
     (add (fun _ => "Number") ⟨"Number", fun a b : Int => a - b, [1, 2, 2, 3]⟩ [2]).2 = none) :=
  ⟨by decide, by decide, rfl,
   insertion_stability (fun _ => "Number") ⟨"Number", fun a b : Int => a - b, [1, 2, 2, 3]⟩ 2
     (by decide) (by decide) rfl⟩

/-- Adding a block of items that is sorted as a continuation of the current
backing array appends it unchanged: each item in turn has insertion
index at the very end. -/
theorem add_append (tagOf : α → String) :
    ∀ (litems : List α) (s : TypeSafeSortedArray α),
      SortedNonDesc s.compare (s._array ++ litems) →
      ConsistentCmp s.compare (s._array ++ litems) →
      (∀ a ∈ litems, tagOf a = s.type) →
      add tagOf s litems = ({ s with _array := s._array ++ litems }, none) := by
  intro litems
  induction litems with
  | nil =>
      intro s _ _ _
      rw [add]
      simp
  | cons item rest ih =>
      intro s hs hc htags
      have hPS : List.Pairwise (fun a b => s.compare a b ≤ 0) (s._array ++ item :: rest) :=
        pairwise_of_sortedNonDesc s.compare _
          (fun a ha b hb c hcm => hc.2 a ha b hb c hcm) hs
      obtain ⟨hPl, hPr, hcross⟩ := List.pairwise_append.mp hPS
      have hsl : SortedNonDesc s.compare s._array := sortedNonDesc_of_pairwise _ _ hPl
      have hcs : ConsistentCmp s.compare (item :: s._array) := by
        apply consistentCmp_mono _ _ _ ?_ hc
        intro x hx
        rcases List.mem_cons.mp hx with h | h
        · simp [h]
        · simp [h]
      obtain ⟨h0, hn, hbel, habv⟩ := findInsertionIndex_spec s item hsl hcs
      have hfull : findInsertionIndex s item 0 s._array.length = (s._array.length : Int) := by
        by_contra hne
        have hidx : (findInsertionIndex s item 0 s._array.length).toNat <
            s._array.length := by omega
        have h1 := habv (findInsertionIndex s item 0 s._array.length).toNat hidx (by omega)
        have h2 := hcross _ (List.getElem_mem hidx) item (List.mem_cons_self _ _)
        omega
      have hassoc : (s._array ++ [item]) ++ rest = s._array ++ item :: rest := by simp
      have hins := readonlySplice_insert tagOf s ((s._array.length : Nat) : Int) item
        (by omega) (by omega) (htags item (List.mem_cons_self _ _))
      simp only [Int.toNat_natCast, List.take_length, List.drop_length] at hins
      have hstep : add tagOf s (item :: rest) =
          add tagOf { s with _array := s._array ++ [item] } rest := by
        simp only [add, hfull, hins]
      rw [hstep]
      have ihres := ih { s with _array := s._array ++ [item] }
        (by rw [show ({ s with _array := s._array ++ [item] } :
              TypeSafeSortedArray α)._array ++ rest = s._array ++ item :: rest from hassoc]
            exact hs)
        (by rw [show ({ s with _array := s._array ++ [item] } :
              TypeSafeSortedArray α)._array ++ rest = s._array ++ item :: rest from hassoc]
            exact hc)
        (fun a ha => htags a (List.mem_cons_of_mem item ha))
      rw [ihres]
      simp

/-- Rebuilding through the constructor from an already sorted, consistent,
well-typed item list reproduces exactly that list. -/
theorem sortedArrayNew_id (tagOf : α → String) (type : String) (cmp : α → α → Int)
    (l : List α) (hs : SortedNonDesc cmp l) (hc : ConsistentCmp cmp l)
    (htags : ∀ a ∈ l, tagOf a = type) :
    sortedArrayNew tagOf type cmp l = (⟨type, cmp, l⟩, none) := by
  rw [sortedArrayNew]
  have h := add_append tagOf l ⟨type, cmp, []⟩ (by simpa using hs) (by simpa using hc) htags
  simpa using h

/-- C9: on a sorted array with a consistent comparator and well-typed
elements, slice(0, length) reproduces a sorted array with the same
declared type, the same comparator and the identical element sequence, and
filter with an always-true predicate does the same; neither throws, and
both build a fresh array, leaving the original untouched. -/
theorem slice_filter_round_trip (tagOf : α → String) (s : TypeSafeSortedArray α)
    (hs : SortedNonDesc s.compare s._array)
    (hc : ConsistentCmp s.compare s._array)
    (htags : ∀ a ∈ s._array, tagOf a = s.type) :
    slice tagOf s 0 (some (s._array.length : Int)) = (s, none) ∧
    filter tagOf s (fun _ => true) = (s, none) := by
  constructor
  · rw [slice]
    have hsl : jsSlice s._array 0 (some (s._array.length : Int)) = s._array := by
      have h1 : jsSliceIndex s._array.length ((s._array.length : Nat) : Int) =
          s._array.length := by
        rw [jsSliceIndex, if_neg (by omega)]
        omega
      have h0 : jsSliceIndex s._array.length 0 = 0 := by
        rw [jsSliceIndex, if_neg (by omega)]
        omega
      simp only [jsSlice, h1, h0]
      simp
    rw [hsl]
    exact sortedArrayNew_id tagOf s.type s.compare s._array hs hc htags
  · rw [filter]
    have hfl : s._array.filter (fun _ => true) = s._array := List.filter_true s._array
    rw [hfl]
    exact sortedArrayNew_id tagOf s.type s.compare s._array hs hc htags

/-- C9 witness: the round trip applied to the Number array [1, 2, 3]
(numeric comparator). -/
theorem slice_filter_round_trip_witness :
    SortedNonDesc (fun a b : Int => a - b) [1, 2, 3] ∧
    ConsistentCmp (fun a b : Int => a - b) [1, 2, 3] ∧
    (slice (fun _ => "Number") ⟨"Number", fun a b : Int => a - b, [1, 2, 3]⟩ 0 (some 3) =
      (⟨"Number", fun a b : Int => a - b, [1, 2, 3]⟩, none) ∧
     filter (fun _ => "Number") ⟨"Number", fun a b : Int => a - b, [1, 2, 3]⟩ (fun _ => true) =
      (⟨"Number", fun a b : Int => a - b, [1, 2, 3]⟩, none)) :=
  ⟨by decide, by decide,
   slice_filter_round_trip (fun _ => "Number") ⟨"Number", fun a b : Int => a - b, [1, 2, 3]⟩
     (by decide) (by decide) (fun a _ => rfl)⟩

end StabilityAndRoundTrip

section SearchTheory

variable {α : Type} [DecidableEq α]

/-- Correctness of the lookup binary search on a range whose outside provably
misses the item: it finds an occurrence by native equality when the item is
present, and returns -1 when it is absent. Requires sortedness (pairwise),
sign consistency against the item, and that comparator ties against the
item coincide with native equality. -/
theorem binarySearch_go (s : TypeSafeSortedArray α) (item : α) (arr : List α)
    (hp : ∀ (i j : Nat) (hi : i < arr.length) (hj : j < arr.length),
      i < j → s.compare arr[i] arr[j] ≤ 0)
    (hflip : ∀ a ∈ arr, s.compare a item < 0 → 0 < s.compare item a)
    (htie : ∀ a ∈ arr, s.compare a item = 0 → a = item) :
    ∀ (d : Nat) (left right : Int), (right - left + 1).toNat ≤ d →
      0 ≤ left → right ≤ (arr.length : Int) - 1 →
      (∀ (i : Nat) (hi : i < arr.length), ((i : Int) < left ∨ right < (i : Int)) →
        arr[i] ≠ item) →
      (item ∈ arr →
        0 ≤ binarySearch s item arr left right ∧
        ∃ h : (binarySearch s item arr left right).toNat < arr.length,
          arr[(binarySearch s item arr left right).toNat] = item) ∧
      (item ∉ arr → binarySearch s item arr left right = -1) := by
  intro d
  induction d with
  | zero =>
      intro left right hd h0 hrn hout
      rw [binarySearch_base s item arr left right (by omega)]
      refine ⟨?_, fun _ => rfl⟩
      intro hmem
      obtain ⟨i, hi, hie⟩ := List.mem_iff_getElem.mp hmem
      exact absurd hie (hout i hi (by omega))
  | succ d ih =>
      intro left right hd h0 hrn hout
      by_cases hge : right ≥ left
      · have hm0 : (0 : Int) ≤ left + (right - left) / 2 := by omega
        have hmb : left ≤ left + (right - left) / 2 ∧
            left + (right - left) / 2 ≤ right := by omega
        have hmn : (left + (right - left) / 2).toNat < arr.length := by omega
        rw [binarySearch_step s item arr left right _ hge (getI_eq_some _ _ hm0 hmn)]
        rw [List.get_eq_getElem]
        by_cases heq : arr[(left + (right - left) / 2).toNat] = item
        · rw [if_pos heq]
          refine ⟨fun _ => ⟨by omega, hmn, heq⟩, ?_⟩
          intro hnot
          exact absurd (heq ▸ List.getElem_mem hmn) hnot
        · rw [if_neg heq]
          by_cases hgt : s.compare arr[(left + (right - left) / 2).toNat] item > 0
          · rw [if_pos hgt]
            have hout2 : ∀ (i : Nat) (hi : i < arr.length),
                ((i : Int) < left ∨ left + (right - left) / 2 - 1 < (i : Int)) →
                arr[i] ≠ item := by
              intro i hi hir
              rcases hir with hA | hB
              · exact hout i hi (Or.inl hA)
              · by_cases hieq : i = (left + (right - left) / 2).toNat
                · subst hieq; exact heq
                · by_cases hiright : right < (i : Int)
                  · exact hout i hi (Or.inr hiright)
                  · intro hix
                    have hp2 := hp (left + (right - left) / 2).toNat i hmn hi (by omega)
                    rw [hix] at hp2
                    omega
            exact ih left (left + (right - left) / 2 - 1) (by omega) h0 (by omega) hout2
          · rw [if_neg hgt]
            have hlt0 : s.compare arr[(left + (right - left) / 2).toNat] item < 0 := by
              rcases lt_or_eq_of_le (by omega :
                  s.compare arr[(left + (right - left) / 2).toNat] item ≤ 0) with h | h
              · exact h
              · exact absurd (htie _ (List.getElem_mem hmn) h) heq
            have hout2 : ∀ (i : Nat) (hi : i < arr.length),
                ((i : Int) < left + (right - left) / 2 + 1 ∨ right < (i : Int)) →
                arr[i] ≠ item := by
              intro i hi hir
              rcases hir with hA | hB
              · by_cases hieq : i = (left + (right - left) / 2).toNat
                · subst hieq; exact heq
                · by_cases hileft : (i : Int) < left
                  · exact hout i hi (Or.inl hileft)
                  · intro hix
                    have hp2 := hp i (left + (right - left) / 2).toNat hi hmn (by omega)
                    rw [hix] at hp2
                    have := hflip _ (List.getElem_mem hmn) hlt0
                    omega
              · exact hout i hi (Or.inr hB)
            exact ih (left + (right - left) / 2 + 1) right (by omega) (by omega) hrn hout2
      · rw [binarySearch_base s item arr left right hge]
        refine ⟨?_, fun _ => rfl⟩
        intro hmem
        obtain ⟨i, hi, hie⟩ := List.mem_iff_getElem.mp hmem
        exact absurd hie (hout i hi (by omega))

/-- Under sortedness, sign consistency and exact ties, comparator-equal runs
(and hence runs of occurrences of the item) are contiguous. -/
theorem ties_contiguous (s : TypeSafeSortedArray α) (item : α) (arr : List α)
    (hp : ∀ (i j : Nat) (hi : i < arr.length) (hj : j < arr.length),
      i < j → s.compare arr[i] arr[j] ≤ 0)
    (hflip : ∀ a ∈ arr, s.compare a item < 0 → 0 < s.compare item a)
    (htie : ∀ a ∈ arr, s.compare a item = 0 → a = item) :
    ∀ (i j k : Nat) (hi : i < arr.length) (hj : j < arr.length) (hk : k < arr.length),
      i ≤ j → j ≤ k → arr[i] = item → arr[k] = item → arr[j] = item := by
  intro i j k hi hj hk hij hjk hxi hxk
  rcases Nat.eq_or_lt_of_le hij with h1 | h1
  · subst h1; exact hxi
  · rcases Nat.eq_or_lt_of_le hjk with h2 | h2
    · subst h2; exact hxk
    · have hpij := hp i j hi hj h1
      have hpjk := hp j k hj hk h2
      rw [hxi] at hpij
      rw [hxk] at hpjk
      rcases lt_or_eq_of_le hpjk with h3 | h3
      · have := hflip _ (List.getElem_mem hj) h3
        omega
      · exact htie _ (List.getElem_mem hj) h3

/-- The leftward walk of `indexOf` reaches a position holding the item whose
predecessor (if any) does not hold it, without moving right. -/
theorem findFirstIndex_spec (arr : List α) (x : α) :
    ∀ (c : Nat) (hc : c < arr.length), arr[c] = x →
      findFirstIndex arr x c ≤ c ∧
      ∃ h : findFirstIndex arr x c < arr.length,
        arr[findFirstIndex arr x c] = x ∧
        (findFirstIndex arr x c = 0 ∨
          ∀ hq : findFirstIndex arr x c - 1 < arr.length,
            arr[findFirstIndex arr x c - 1] ≠ x) := by
  intro c
  induction c with
  | zero =>
      intro hc hx
      rw [findFirstIndex]
      exact ⟨le_refl _, hc, hx, Or.inl rfl⟩
  | succ c ih =>
      intro hc hx
      by_cases hprev : arr[c]? = some x
      · have hcl : c < arr.length := by omega
        have hcx : arr[c] = x := by
          rw [List.getElem?_eq_getElem hcl] at hprev
          exact Option.some.inj hprev
        rw [show findFirstIndex arr x (c + 1) = findFirstIndex arr x c from by
          rw [findFirstIndex]; simp [hprev]]
        obtain ⟨h1, h2, h3, h4⟩ := ih hcl hcx
        exact ⟨by omega, h2, h3, h4⟩
      · rw [show findFirstIndex arr x (c + 1) = c + 1 from by
          rw [findFirstIndex]; simp [hprev]]
        refine ⟨le_refl _, hc, hx, Or.inr ?_⟩
        intro hq
        simp only [Nat.add_sub_cancel]
        intro hcx
        apply hprev
        rw [List.getElem?_eq_getElem (by omega : c < arr.length)]
        exact congrArg some hcx

/-- The rightward walk of `lastIndexOf` reaches a position holding the item
whose successor (if any) does not hold it, without moving left. -/
theorem findLastIndex_spec (arr : List α) (x : α) :
    ∀ (d c : Nat), arr.length - c ≤ d → ∀ hc : c < arr.length, arr[c] = x →
      c ≤ findLastIndex arr x c ∧
      ∃ h : findLastIndex arr x c < arr.length,
        arr[findLastIndex arr x c] = x ∧ arr[findLastIndex arr x c + 1]? ≠ some x := by
  intro d
  induction d with
  | zero =>
      intro c hd hc hx
      exact absurd hd (by omega)
  | succ d ih =>
      intro c hd hc hx
      by_cases hnext : arr[c + 1]? = some x
      · have hc1 : c + 1 < arr.length := by
          by_contra hlen
          rw [List.getElem?_eq_none (by omega)] at hnext
          exact Option.noConfusion hnext
        have hx1 : arr[c + 1] = x := by
          rw [List.getElem?_eq_getElem hc1] at hnext
          exact Option.some.inj hnext
        rw [findLastIndex_go arr x c hnext]
        obtain ⟨h1, h2, h3, h4⟩ := ih (c + 1) (by omega) hc1 hx1
        exact ⟨by omega, h2, h3, h4⟩
      · rw [findLastIndex_stop arr x c hnext]
        exact ⟨le_refl _, hc, hx, hnext⟩

end SearchTheory

section SearchClaims

variable {α : Type} [DecidableEq α]

/-- C2 amended: on a sorted array with a comparator consistent over the
elements and the key, and whose ties against the key coincide with native
equality, includes is exactly membership by native equality, indexOf
returns the minimal index of an occurrence, lastIndexOf the maximal one,
and both return -1 on a missing key (no fromIndex given). -/
theorem search_correct_with_exact_ties (s : TypeSafeSortedArray α) (x : α)
    (hs : SortedNonDesc s.compare s._array)
    (hc : ConsistentCmp s.compare (x :: s._array))
    (htie : ∀ a ∈ s._array, s.compare a x = 0 → a = x) :
    (includes s x none = true ↔ x ∈ s._array) ∧
    (x ∈ s._array →
      ∃ m : Nat, indexOf s x none = (m : Int) ∧
        (∃ h : m < s._array.length, s._array[m] = x) ∧
        ∀ (j : Nat) (hj : j < s._array.length), j < m → s._array[j] ≠ x) ∧
    (x ∈ s._array →
      ∃ m : Nat, lastIndexOf s x none = (m : Int) ∧
        (∃ h : m < s._array.length, s._array[m] = x) ∧
        ∀ (j : Nat) (hj : j < s._array.length), m < j → s._array[j] ≠ x) ∧
    (x ∉ s._array → indexOf s x none = -1 ∧ lastIndexOf s x none = -1) := by
  have hp : ∀ (i j : Nat) (hi : i < s._array.length) (hj : j < s._array.length),
      i < j → s.compare s._array[i] s._array[j] ≤ 0 := by
    intro i j hi hj hij
    exact List.pairwise_iff_getElem.mp (pairwise_backing s x hs hc) i j hi hj hij
  have hflip : ∀ a ∈ s._array, s.compare a x < 0 → 0 < s.compare x a := by
    intro a ha hlt
    exact (hc.1 x (List.mem_cons_self x _) a (List.mem_cons_of_mem x ha)).mpr hlt
  have hout : ∀ (i : Nat) (hi : i < s._array.length),
      ((i : Int) < 0 ∨ (s._array.length : Int) - 1 < (i : Int)) → s._array[i] ≠ x := by
    intro i hi hor
    exfalso
    omega
  have hbs := binarySearch_go s x s._array hp hflip htie s._array.length 0
    ((s._array.length : Int) - 1) (by omega) (by omega) (by omega) hout
  have hincl : includes s x none =
      (binarySearch s x s._array 0 ((s._array.length : Int) - 1) != -1) := rfl
  have hidx : indexOf s x none =
      (if binarySearch s x s._array 0 ((s._array.length : Int) - 1) != -1
       then ((findFirstIndex s._array x
         (binarySearch s x s._array 0 ((s._array.length : Int) - 1)).toNat : Nat) : Int)
       else -1) := rfl
  have hlast : lastIndexOf s x none =
      (if binarySearch s x s._array 0 ((s._array.length : Int) - 1) != -1
       then ((findLastIndex s._array x
         (binarySearch s x s._array 0 ((s._array.length : Int) - 1)).toNat : Nat) : Int)
       else -1) := rfl
  refine ⟨?_, ?_, ?_, ?_⟩
  · rw [hincl]
    constructor
    · intro h
      by_contra hnot
      rw [hbs.2 hnot] at h
      simp at h
    · intro hmem
      obtain ⟨h0, hlt, hx⟩ := hbs.1 hmem
      simp only [bne_iff_ne, ne_eq]
      omega
  · intro hmem
    obtain ⟨h0, hlt, hx⟩ := hbs.1 hmem
    rw [hidx, if_pos (by simp only [bne_iff_ne, ne_eq]; omega)]
    obtain ⟨hle, hm, hmx, hmpred⟩ := findFirstIndex_spec s._array x _ hlt hx
    refine ⟨findFirstIndex s._array x
      (binarySearch s x s._array 0 ((s._array.length : Int) - 1)).toNat, rfl,
      ⟨hm, hmx⟩, ?_⟩
    intro j hj hjm hjx
    rcases hmpred with hzero | hpred
    · omega
    · have hcont := ties_contiguous s x s._array hp hflip htie j
        (findFirstIndex s._array x
          (binarySearch s x s._array 0 ((s._array.length : Int) - 1)).toNat - 1) _
        hj (by omega) hm (by omega) (by omega) hjx hmx
      exact hpred (by omega) hcont
  · intro hmem
    obtain ⟨h0, hlt, hx⟩ := hbs.1 hmem
    rw [hlast, if_pos (by simp only [bne_iff_ne, ne_eq]; omega)]
    obtain ⟨hge, hm, hmx, hnext⟩ := findLastIndex_spec s._array x s._array.length _
      (by omega) hlt hx
    refine ⟨findLastIndex s._array x
      (binarySearch s x s._array 0 ((s._array.length : Int) - 1)).toNat, rfl,
      ⟨hm, hmx⟩, ?_⟩
    intro j hj hmj hjx
    have hm1 : findLastIndex s._array x
        (binarySearch s x s._array 0 ((s._array.length : Int) - 1)).toNat + 1 <
        s._array.length := by omega
    have hcont := ties_contiguous s x s._array hp hflip htie _
      (findLastIndex s._array x
        (binarySearch s x s._array 0 ((s._array.length : Int) - 1)).toNat + 1) j
      hm hm1 hj (by omega) (by omega) hmx hjx
    apply hnext
    rw [List.getElem?_eq_getElem hm1]
    exact congrArg some hcont
  · intro hnot
    rw [hidx, hlast, hbs.2 hnot]
    simp

/-- C2 witness: search correctness applied to the Number array [1, 2, 2, 3]
(numeric comparator) with key 2. -/
theorem search_correct_with_exact_ties_witness :
    SortedNonDesc (fun a b : Int => a - b) [1, 2, 2, 3] ∧
    ConsistentCmp (fun a b : Int => a - b) (2 :: [1, 2, 2, 3]) ∧
    (∀ a ∈ ([1, 2, 2, 3] : List Int), a - 2 = 0 → a = 2) ∧
    ((includes ⟨"Number", fun a b : Int => a - b, [1, 2, 2, 3]⟩ 2 none = true ↔
        (2 : Int) ∈ ([1, 2, 2, 3] : List Int)) ∧
     ((2 : Int) ∈ ([1, 2, 2, 3] : List Int) →
       ∃ m : Nat, indexOf ⟨"Number", fun a b : Int => a - b, [1, 2, 2, 3]⟩ 2 none = (m : Int) ∧
         (∃ h : m < ([1, 2, 2, 3] : List Int).length, ([1, 2, 2, 3] : List Int)[m] = 2) ∧
         ∀ (j : Nat) (hj : j < ([1, 2, 2, 3] : List Int).length), j < m →
           ([1, 2, 2, 3] : List Int)[j] ≠ 2) ∧
     ((2 : Int) ∈ ([1, 2, 2, 3] : List Int) →
       ∃ m : Nat, lastIndexOf ⟨"Number", fun a b : Int => a - b, [1, 2, 2, 3]⟩ 2 none = (m : Int) ∧
         (∃ h : m < ([1, 2, 2, 3] : List Int).length, ([1, 2, 2, 3] : List Int)[m] = 2) ∧
         ∀ (j : Nat) (hj : j < ([1, 2, 2, 3] : List Int).length), m < j →
           ([1, 2, 2, 3] : List Int)[j] ≠ 2) ∧
     ((2 : Int) ∉ ([1, 2, 2, 3] : List Int) →
       indexOf ⟨"Number", fun a b : Int => a - b, [1, 2, 2, 3]⟩ 2 none = -1 ∧
       lastIndexOf ⟨"Number", fun a b : Int => a - b, [1, 2, 2, 3]⟩ 2 none = -1)) :=
  ⟨by decide, by decide, by decide,
   search_correct_with_exact_ties ⟨"Number", fun a b : Int => a - b, [1, 2, 2, 3]⟩ 2
     (by decide) (by decide) (by decide)⟩

/-- C2 counterexample: the always-zero comparator is a strict weak ordering
that is consistent and total over the elements present (every pair is
tied), the array [0, 1, 2] is sorted under it and type-homogeneous, the
value 0 occurs in the backing elements, and yet includes(0) returns false
— the binary search walks past the occurrence because comparator ties do
not imply native equality. -/
theorem search_claim_counterexample :
    SortedNonDesc (fun _ _ : Int => (0 : Int)) [0, 1, 2] ∧
    ConsistentCmp (fun _ _ : Int => (0 : Int)) ((0 : Int) :: [0, 1, 2]) ∧
    (∀ a ∈ ([0, 1, 2] : List Int), (fun _ : Int => "Number") a = "Number") ∧
    (0 : Int) ∈ ([0, 1, 2] : List Int) ∧
    includes (⟨"Number", fun _ _ => 0, [0, 1, 2]⟩ : TypeSafeSortedArray Int) 0 none = false := by
  refine ⟨by decide, by decide, by decide, by decide, ?_⟩
  have h1 : binarySearch (⟨"Number", fun _ _ => 0, [0, 1, 2]⟩ : TypeSafeSortedArray Int)
      0 [0, 1, 2] 0 2 = binarySearch (⟨"Number", fun _ _ => 0, [0, 1, 2]⟩ :
        TypeSafeSortedArray Int) 0 [0, 1, 2] 2 2 := by
    rw [binarySearch_step _ 0 [0, 1, 2] 0 2 1 (by norm_num)
      (by decide : getI ([0, 1, 2] : List Int) (0 + (2 - 0) / 2) = some 1)]
    norm_num
  have h2 : binarySearch (⟨"Number", fun _ _ => 0, [0, 1, 2]⟩ : TypeSafeSortedArray Int)
      0 [0, 1, 2] 2 2 = binarySearch (⟨"Number", fun _ _ => 0, [0, 1, 2]⟩ :
        TypeSafeSortedArray Int) 0 [0, 1, 2] 3 2 := by
    rw [binarySearch_step _ 0 [0, 1, 2] 2 2 2 (by norm_num)
      (by decide : getI ([0, 1, 2] : List Int) (2 + (2 - 2) / 2) = some 2)]
    norm_num
  have h3 : binarySearch (⟨"Number", fun _ _ => 0, [0, 1, 2]⟩ : TypeSafeSortedArray Int)
      0 [0, 1, 2] 3 2 = -1 := binarySearch_base _ 0 [0, 1, 2] 3 2 (by norm_num)
  have hincl : includes (⟨"Number", fun _ _ => 0, [0, 1, 2]⟩ : TypeSafeSortedArray Int)
      0 none = (binarySearch (⟨"Number", fun _ _ => 0, [0, 1, 2]⟩ : TypeSafeSortedArray Int)
        0 [0, 1, 2] 0 2 != -1) := rfl
  rw [hincl, h1, h2, h3]
  rfl

end SearchClaims

section TypeGuardClaims

variable {α : Type} [DecidableEq α]

/-- A list containing a value of the wrong tag never passes as homogeneous of
the declared type. -/
theorem getArrayType_ne (tagOf : α → String) (items : List α) (t : String) (x : α)
    (hx : x ∈ items) (hne : tagOf x ≠ t) : getArrayType tagOf items ≠ some t := by
  cases items with
  | nil => cases hx
  | cons y ys =>
      rw [getArrayType]
      split
      · rename_i hall
        intro hsome
        injection hsome with ht
        have hxy := List.all_eq_true.mp hall x hx
        rw [beq_iff_eq] at hxy
        exact hne (by rw [hxy, ht])
      · intro h
        exact Option.noConfusion h

/-- C4 counterexample: on an empty Number sorted array, add(3, "a") raises
TypeMismatch but leaves the number 3 inserted — the size and contents
differ before and after the failed call, contradicting the no-partial-
mutation clause. -/
theorem typeguard_claim_counterexample :
    (add getType (⟨"Number", compareNumber, []⟩ : TypeSafeSortedArray JSVal)
      [.num 3, .str "a"]).2 = some .add ∧
    (add getType (⟨"Number", compareNumber, []⟩ : TypeSafeSortedArray JSVal)
      [.num 3, .str "a"]).1._array = [.num 3] ∧
    (add getType (⟨"Number", compareNumber, []⟩ : TypeSafeSortedArray JSVal)
      [.num 3, .str "a"]).1._array ≠
      (⟨"Number", compareNumber, []⟩ : TypeSafeSortedArray JSVal)._array := by
  have hsp1 : readonlySplice getType (⟨"Number", compareNumber, []⟩ : TypeSafeSortedArray JSVal)
      (findInsertionIndex (⟨"Number", compareNumber, []⟩ : TypeSafeSortedArray JSVal)
        (.num 3) 0 ((([] : List JSVal).length : Nat) : Int)) (some 0) [.num 3] =
      .ok ((⟨"Number", compareNumber, [.num 3]⟩ : TypeSafeSortedArray JSVal), []) := by
    rw [readonlySplice_single_ok getType _ _ (some 0) (.num 3) rfl]
    simp [jsSplice]
  have hsp2 : readonlySplice getType
      (⟨"Number", compareNumber, [.num 3]⟩ : TypeSafeSortedArray JSVal)
      (findInsertionIndex (⟨"Number", compareNumber, [.num 3]⟩ : TypeSafeSortedArray JSVal)
        (.str "a") 0 ((([.num 3] : List JSVal).length : Nat) : Int)) (some 0) [.str "a"] =
      .error .add :=
    readonlySplice_insert_bad getType _ _ (some 0) (.str "a") (by decide)
  have heval : add getType (⟨"Number", compareNumber, []⟩ : TypeSafeSortedArray JSVal)
      [.num 3, .str "a"] =
      ((⟨"Number", compareNumber, [.num 3]⟩ : TypeSafeSortedArray JSVal), some .add) := by
    simp only [add, hsp1, hsp2]
  rw [heval]
  exact ⟨rfl, rfl, by decide⟩

/-- Helper for C4: the sorted-array add on an argument list containing a
wrong-tagged item raises the add error, and the final state equals the
state after adding only the well-typed prefix of the arguments. -/
theorem add_wrong_tag_partial (tagOf : α → String) :
    ∀ (items : List α) (s : TypeSafeSortedArray α),
      (∃ x ∈ items, tagOf x ≠ s.type) →
      (add tagOf s items).2 = some .add ∧
      (add tagOf s items).1 =
        (add tagOf s (items.takeWhile (fun x => tagOf x == s.type))).1 := by
  intro items
  induction items with
  | nil =>
      rintro s ⟨x, hx, _⟩
      cases hx
  | cons item rest ih =>
      intro s hex
      by_cases htag : tagOf item = s.type
      · have hbad : ∃ x ∈ rest, tagOf x ≠ s.type := by
          obtain ⟨x, hx, hxne⟩ := hex
          rcases List.mem_cons.mp hx with h | h
          · subst h; exact absurd htag hxne
          · exact ⟨x, h, hxne⟩
        have hsp := readonlySplice_single_ok tagOf s
          (findInsertionIndex s item 0 s._array.length) (some 0) item htag
        have htw : (item :: rest).takeWhile (fun x => tagOf x == s.type) =
            item :: rest.takeWhile (fun x => tagOf x == s.type) := by
          rw [List.takeWhile_cons, if_pos (by simp [htag])]
        obtain ⟨ih1, ih2⟩ := ih { s with _array :=
          (jsSplice s._array (findInsertionIndex s item 0 s._array.length)
            ((some (0 : Int)).getD 0) [item]).2 } hbad
        refine ⟨?_, ?_⟩
        · simp only [add, hsp]
          exact ih1
        · rw [htw]
          simp only [add, hsp]
          exact ih2
      · have hsp := readonlySplice_insert_bad tagOf s
          (findInsertionIndex s item 0 s._array.length) (some 0) item htag
        have htw : (item :: rest).takeWhile (fun x => tagOf x == s.type) = [] := by
          rw [List.takeWhile_cons, if_neg (by simp [htag])]
        refine ⟨?_, ?_⟩
        · simp only [add, hsp]
        · rw [htw]
          simp only [add, hsp]

/-- Helper for C4: the stack push loop on an argument list containing a
wrong-tagged item raises the add error; the final list is the one reached
by pushing the well-typed prefix, with the capacity eviction of the
failing iteration already applied (the pop precedes the type check). -/
theorem stackPushLoop_wrong_tag (tagOf : α → String) (type : String)
    (capacity : Option Int) :
    ∀ (items : List α) (l : List α), (∃ x ∈ items, tagOf x ≠ type) →
      (typeSafeStackPushLoop tagOf type capacity l items).2 = some .add ∧
      (typeSafeStackPushLoop tagOf type capacity l items).1 =
        (let lg := (typeSafeStackPushLoop tagOf type capacity l
          (items.takeWhile (fun x => tagOf x == type))).1
         if sizeAtCapacity capacity lg then lg.dropLast else lg) := by
  intro items
  induction items with
  | nil =>
      rintro l ⟨x, hx, _⟩
      cases hx
  | cons item rest ih =>
      intro l hex
      by_cases htag : tagOf item = type
      · have hok : ∀ l1 : List α, typeSafeLinkedListPush tagOf type l1 [item] =
            .ok (l1 ++ [item]) := by
          intro l1
          rw [typeSafeLinkedListPush, if_pos]
          simp [getArrayType, htag]
        have hbad : ∃ x ∈ rest, tagOf x ≠ type := by
          obtain ⟨x, hx, hxne⟩ := hex
          rcases List.mem_cons.mp hx with h | h
          · subst h; exact absurd htag hxne
          · exact ⟨x, h, hxne⟩
        have htw : (item :: rest).takeWhile (fun x => tagOf x == type) =
            item :: rest.takeWhile (fun x => tagOf x == type) := by
          rw [List.takeWhile_cons, if_pos (by simp [htag])]
        obtain ⟨ih1, ih2⟩ := ih
          ((if sizeAtCapacity capacity l then l.dropLast else l) ++ [item]) hbad
        refine ⟨?_, ?_⟩
        · simp only [typeSafeStackPushLoop, hok]
          exact ih1
        · rw [htw]
          simp only [typeSafeStackPushLoop, hok]
          exact ih2
      · have hbadpush : ∀ l1 : List α, typeSafeLinkedListPush tagOf type l1 [item] =
            .error .add := by
          intro l1
          rw [typeSafeLinkedListPush, if_neg]
          simp [getArrayType, htag]
        have htw : (item :: rest).takeWhile (fun x => tagOf x == type) = [] := by
          rw [List.takeWhile_cons, if_neg (by simp [htag])]
        refine ⟨?_, ?_⟩
        · simp only [typeSafeStackPushLoop, hbadpush]
        · rw [htw]
          simp only [typeSafeStackPushLoop, hbadpush]

/-- Helper for C4: the queue enqueue loop (arguments already in execution
order) on a list containing a wrong-tagged item raises the add error; the
final list is the one reached by admitting the well-typed prefix of the
execution order, with the capacity eviction of the failing iteration
already applied. -/
theorem queueEnqueueLoop_wrong_tag (tagOf : α → String) (type : String)
    (capacity : Option Int) :
    ∀ (items : List α) (l : List α), (∃ x ∈ items, tagOf x ≠ type) →
      (typeSafeQueueEnqueueLoop tagOf type capacity l items).2 = some .add ∧
      (typeSafeQueueEnqueueLoop tagOf type capacity l items).1 =
        (let lg := (typeSafeQueueEnqueueLoop tagOf type capacity l
          (items.takeWhile (fun x => tagOf x == type))).1
         if sizeAtCapacity capacity lg then lg.dropLast else lg) := by
  intro items
  induction items with
  | nil =>
      rintro l ⟨x, hx, _⟩
      cases hx
  | cons item rest ih =>
      intro l hex
      by_cases htag : tagOf item = type
      · have hok : ∀ l1 : List α, typeSafeLinkedListUnshift tagOf type l1 [item] =
            .ok (item :: l1) := by
          intro l1
          simp [typeSafeLinkedListUnshift, getArrayType, htag]
        have hbad : ∃ x ∈ rest, tagOf x ≠ type := by
          obtain ⟨x, hx, hxne⟩ := hex
          rcases List.mem_cons.mp hx with h | h
          · subst h; exact absurd htag hxne
          · exact ⟨x, h, hxne⟩
        have htw : (item :: rest).takeWhile (fun x => tagOf x == type) =
            item :: rest.takeWhile (fun x => tagOf x == type) := by
          rw [List.takeWhile_cons, if_pos (by simp [htag])]
        obtain ⟨ih1, ih2⟩ := ih
          (item :: (if sizeAtCapacity capacity l then l.dropLast else l)) hbad
        refine ⟨?_, ?_⟩
        · simp only [typeSafeQueueEnqueueLoop, hok]
          exact ih1
        · rw [htw]
          simp only [typeSafeQueueEnqueueLoop, hok]
          exact ih2
      · have hbadpush : ∀ l1 : List α, typeSafeLinkedListUnshift tagOf type l1 [item] =
            .error .add := by
          intro l1
          rw [typeSafeLinkedListUnshift, if_neg]
          simp [getArrayType, htag]
        have htw : (item :: rest).takeWhile (fun x => tagOf x == type) = [] := by
          rw [List.takeWhile_cons, if_neg (by simp [htag])]
        refine ⟨?_, ?_⟩
        · simp only [typeSafeQueueEnqueueLoop, hbadpush]
        · rw [htw]
          simp only [typeSafeQueueEnqueueLoop, hbadpush]

/-- C4 amended: on an argument list containing a wrong-tagged value, the
batch-validating mutators — array push and unshift, the inherited array
splice, linked-list push and unshift — raise TypeMismatch before touching
the container, leaving it unchanged, as do the single-value mutators
(array fill, linked-list set, Set.add) on a wrong-tagged value; the
per-item-validating mutators also raise TypeMismatch but keep the effects
that preceded the failing item: sorted-array add retains the inserted
well-typed prefix of its arguments, stack push likewise (with the
capacity eviction of the failing iteration already applied, since the pop
precedes the check), and queue enqueue, which processes its arguments in
reverse, retains the admitted well-typed suffix; the one exception to
raising is sorted-array splice, which discards its items argument by
design and only deletes. -/
theorem typeguard_amended (tagOf : α → String) (type : String) (items : List α)
    (hbad : ∃ x ∈ items, tagOf x ≠ type) :
    (∀ arr : List α, typeSafeArrayPush tagOf type arr items = .error .add) ∧
    (∀ arr : List α, typeSafeArrayUnshift tagOf type arr items = .error .add) ∧
    (∀ (arr : List α) (value : α) (start stop : Option Int), tagOf value ≠ type →
      typeSafeArrayFill tagOf type arr value start stop = .error .assign) ∧
    (∀ (s : TypeSafeSortedArray α) (start : Int) (dc : Option Int), s.type = type →
      readonlySplice tagOf s start dc items = .error .add) ∧
    (∀ l : List α, typeSafeLinkedListPush tagOf type l items = .error .add) ∧
    (∀ l : List α, typeSafeLinkedListUnshift tagOf type l items = .error .add) ∧
    (∀ (l : List α) (index : Int) (value : α), tagOf value ≠ type →
      typeSafeLinkedListSet tagOf type l index value = .error .assign) ∧
    (∀ (s : List α) (value : α), tagOf value ≠ type →
      typeSafeSetAdd tagOf type s value = .error .assign) ∧
    (∀ s : TypeSafeSortedArray α, s.type = type →
      (add tagOf s items).2 = some .add ∧
      (add tagOf s items).1 =
        (add tagOf s (items.takeWhile (fun x => tagOf x == type))).1) ∧
    (∀ (capacity : Option Int) (l : List α),
      (typeSafeStackPush tagOf type capacity l items).2 = some .add ∧
      (typeSafeStackPush tagOf type capacity l items).1 =
        (let lg := (typeSafeStackPushLoop tagOf type capacity l
          (items.takeWhile (fun x => tagOf x == type))).1
         if sizeAtCapacity capacity lg then lg.dropLast else lg)) ∧
    (∀ (capacity : Option Int) (l : List α),
      (typeSafeQueueEnqueue tagOf type capacity l items).2 = some .add ∧
      (typeSafeQueueEnqueue tagOf type capacity l items).1 =
        (let lg := (typeSafeQueueEnqueueLoop tagOf type capacity l
          (items.reverse.takeWhile (fun x => tagOf x == type))).1
         if sizeAtCapacity capacity lg then lg.dropLast else lg)) ∧
    (∀ (s : TypeSafeSortedArray α) (start : Int) (dc : Option Int),
      sortedSplice tagOf s start dc items =
        .ok ({ s with _array := (jsSplice s._array start (dc.getD 0) []).2 },
          (jsSplice s._array start (dc.getD 0) []).1)) := by
  have hga : (getArrayType tagOf items == some type) = false := by
    obtain ⟨x, hx, hxne⟩ := hbad
    rw [beq_eq_false_iff_ne]
    exact getArrayType_ne tagOf items type x hx hxne
  have hnonempty : items.isEmpty = false := by
    obtain ⟨x, hx, _⟩ := hbad
    cases items
    · cases hx
    · rfl
  refine ⟨?_, ?_, ?_, ?_, ?_, ?_, ?_, ?_, ?_, ?_, ?_, ?_⟩
  · intro arr
    rw [typeSafeArrayPush, hga]
    rfl
  · intro arr
    rw [typeSafeArrayUnshift, hga]
    rfl
  · intro arr value start stop hv
    have hvf : (tagOf value == type) = false := by
      rw [beq_eq_false_iff_ne]; exact hv
    simp [typeSafeArrayFill, hvf]
  · intro s start dc hstype
    subst hstype
    rw [readonlySplice, if_neg]
    rw [hnonempty, hga]
    simp
  · intro l
    rw [typeSafeLinkedListPush, hga]
    rfl
  · intro l
    rw [typeSafeLinkedListUnshift, hga]
    rfl
  · intro l index value hv
    rw [typeSafeLinkedListSet, show (tagOf value == type) = false from by
      rw [beq_eq_false_iff_ne]; exact hv]
    rfl
  · intro s value hv
    rw [typeSafeSetAdd, show (tagOf value == type) = false from by
      rw [beq_eq_false_iff_ne]; exact hv]
    rfl
  · intro s hstype
    subst hstype
    exact add_wrong_tag_partial tagOf items s hbad
  · intro capacity l
    exact stackPushLoop_wrong_tag tagOf type capacity items l hbad
  · intro capacity l
    refine queueEnqueueLoop_wrong_tag tagOf type capacity items.reverse l ?_
    obtain ⟨x, hx, hxne⟩ := hbad
    exact ⟨x, List.mem_reverse.mpr hx, hxne⟩
  · intro s start dc
    rfl

/-- C4 witness: the amended guarantee applied with type "Number" and the
argument list (3, "a"): array and linked-list push raise and leave the
container unchanged, the empty sorted array ends in the state reached by
adding only the well-typed prefix [3], and the unbounded type-safe stack
push and queue enqueue raise. -/
theorem typeguard_amended_witness :
    (∃ x ∈ ([.num 3, .str "a"] : List JSVal), getType x ≠ "Number") ∧
    typeSafeArrayPush getType "Number" [.num 1] [.num 3, .str "a"] = .error .add ∧
    typeSafeLinkedListPush getType "Number" [.num 1] [.num 3, .str "a"] = .error .add ∧
    ((add getType (⟨"Number", compareNumber, []⟩ : TypeSafeSortedArray JSVal)
        [.num 3, .str "a"]).2 = some .add ∧
     (add getType (⟨"Number", compareNumber, []⟩ : TypeSafeSortedArray JSVal)
        [.num 3, .str "a"]).1 =
       (add getType (⟨"Number", compareNumber, []⟩ : TypeSafeSortedArray JSVal)
         (([.num 3, .str "a"] : List JSVal).takeWhile
           (fun x => getType x == "Number"))).1) ∧
    (typeSafeStackPush getType "Number" none [] [.num 3, .str "a"]).2 = some .add ∧
    (typeSafeQueueEnqueue getType "Number" none [] [.num 3, .str "a"]).2 = some .add := by
  have h := typeguard_amended getType "Number" [JSVal.num 3, JSVal.str "a"] (by decide)
  obtain ⟨h1, h2, h3, h4, h5, h6, h7, h8, h9, h10, h11, h12⟩ := h
  exact ⟨by decide, h1 [.num 1], h5 [.num 1],
    h9 ⟨"Number", compareNumber, []⟩ rfl, (h10 none []).1, (h11 none []).1⟩

end TypeGuardClaims

section FromIndexClaim

/-- C5 code divergence: on the Number sorted array [1, 2, 3], indexOf(3, 1)
and lastIndexOf(3, 1) search the suffix [2, 3] but return the suffix-local
index 1 without adding fromIndex back; the element at full-array index 1
is 2, not 3, and the true absolute index of 3 is 2. -/
theorem fromIndex_not_rebased_eval :
    indexOf (⟨"Number", fun a b : Int => a - b, [1, 2, 3]⟩ : TypeSafeSortedArray Int)
      3 (some 1) = 1 ∧
    lastIndexOf (⟨"Number", fun a b : Int => a - b, [1, 2, 3]⟩ : TypeSafeSortedArray Int)
      3 (some 1) = 1 ∧
    ([1, 2, 3] : List Int)[1]? = some 2 ∧
    ([1, 2, 3] : List Int)[2]? = some 3 := by
  have hb1 : binarySearch (⟨"Number", fun a b : Int => a - b, [1, 2, 3]⟩ :
        TypeSafeSortedArray Int) 3 [2, 3] 0 1 =
      binarySearch (⟨"Number", fun a b : Int => a - b, [1, 2, 3]⟩ :
        TypeSafeSortedArray Int) 3 [2, 3] 1 1 := by
    rw [binarySearch_step _ 3 [2, 3] 0 1 2 (by norm_num)
      (by decide : getI ([2, 3] : List Int) (0 + (1 - 0) / 2) = some 2)]
    norm_num
  have hb2 : binarySearch (⟨"Number", fun a b : Int => a - b, [1, 2, 3]⟩ :
        TypeSafeSortedArray Int) 3 [2, 3] 1 1 = 1 := by
    rw [binarySearch_step _ 3 [2, 3] 1 1 3 (by norm_num)
      (by decide : getI ([2, 3] : List Int) (1 + (1 - 1) / 2) = some 3)]
    norm_num
  have hslice : (if truthyIdx (some 1) = true
      then jsSlice ([1, 2, 3] : List Int) ((some (1 : Int)).getD 0) none
      else [1, 2, 3]) = [2, 3] := by decide
  have hcast : ((([2, 3] : List Int).length : Nat) : Int) - 1 = 1 := by norm_num
  have hfl : findLastIndex ([2, 3] : List Int) 3 (1 : Int).toNat = 1 :=
    findLastIndex_stop _ _ _ (by decide)
  refine ⟨?_, ?_, by decide, by decide⟩
  · rw [indexOf, fineTuneBinarySearch]
    simp only [hslice, hcast, hb1, hb2]
    decide
  · rw [lastIndexOf, fineTuneBinarySearch]
    simp only [hslice, hcast, hb1, hb2, hfl]
    decide

end FromIndexClaim

end JsDast
